import Mathlib

/-!
# Record store (`main.go`): a shallow embedding

The program keeps a JSON array of users in a file and offers four operations
(`add`, `list`, `findById`, `remove`) behind the entry point `Perform`.

Modelling decisions:

* Go `string` is Lean `String`; Go `[]byte` (file content, marshalled JSON, the
  bytes handed to a writer) is `Bytes = List Char`, i.e. text is handled by
  code point (the content is taken to be valid UTF-8).
* Go `error` results are `Option GoError` (`none` is `nil`).
* A Go slice distinguishes the nil slice from an empty non-nil slice; `Users`
  keeps that distinction because `json.Marshal` prints them differently.
* `*os.File` and `io.Writer` are explicit states threaded through each function.
  Each fallible call of the OS (`ReadAll`, `Truncate`, `Write`) can be made to fail
  through a fault field of the state.
* `encoding/json` is a library, not code of the repository; the fragment that
  `main.go` uses (marshalling `User`/`Users`, unmarshalling into them) is modelled
  as executable definitions below. Go `int` is taken to be 64 bits wide. The limit
  that recent Go versions put on the nesting depth of the input is not modelled.
* The parser runs on a step budget so that it is a structurally recursive, evaluable
  function; `parseValue_budget_enough` and `parseStringBody_fuel_stable` show the
  budget is never exhausted.
-/

namespace Homework8

/-- Go `[]byte`. -/
abbrev Bytes := List Char

/-! ## Data model (`main.go` lines 21-43) -/

/-- `type User struct` with its three fields. `Age` is a Go `int` (64 bit). -/
structure User where
  Id : String
  Email : String
  Age : Int
deriving DecidableEq, Repr

/-- The zero value `User{}` that `var userItem User` / `var foundUser User` start from. -/
def User.zero : User := ⟨"", "", 0⟩

/-- `type Users []User`: a Go slice, either the nil slice or a (possibly empty) non-nil one. -/
inductive Users where
  | nil : Users
  | mk (elems : List User) : Users
deriving DecidableEq, Repr

/-- The elements a `range` loop visits, in order. -/
def Users.toList : Users → List User
  | .nil => []
  | .mk xs => xs

/-- Go `len(s)`. -/
def Users.len (s : Users) : Nat := s.toList.length

/-- Go `append(s, u)`: the result is never nil. -/
def Users.append (s : Users) (u : User) : Users := .mk (s.toList ++ [u])

/-- Errors of `encoding/json`, by Go type. -/
inductive JsonError where
  /-- A `*json.SyntaxError`: the input is not one well-formed JSON value ("unexpected end
  of JSON input", "invalid character ..."). -/
  | syntaxError
  /-- A `*json.UnmarshalTypeError`: well-formed JSON of the wrong shape for the target. -/
  | typeMismatch
deriving DecidableEq, Repr

/-- Go `error` values the program can return. The first five are the package-level
sentinels of lines 30-41. -/
inductive GoError where
  | fileNameError
  | noOperationError
  | wrongOperationError
  | itemError
  | idFlagError
  /-- An error returned by `json.Unmarshal` / `json.Marshal`. -/
  | json (e : JsonError)
  /-- An error reported by the operating system or by the output writer. -/
  | os (msg : String)
  /-- The error `fmt.Errorf(pre + "%s", inner)` built from another error. -/
  | wrap (pre : String) (inner : GoError)
  /-- The error `fmt.Errorf(...)` whose formatted message is `msg`. -/
  | errorf (msg : String)
deriving DecidableEq, Repr

instance instDecidableEqExcept {ε α : Type} [DecidableEq ε] [DecidableEq α] :
    DecidableEq (Except ε α)
  | .ok a, .ok b => if h : a = b then isTrue (by rw [h]) else isFalse (fun h1 => h (by cases h1; rfl))
  | .error a, .error b =>
    if h : a = b then isTrue (by rw [h]) else isFalse (fun h1 => h (by cases h1; rfl))
  | .ok _, .error _ => isFalse (fun h => by cases h)
  | .error _, .ok _ => isFalse (fun h => by cases h)

/-- `type Arguments map[string]string`, read only through `args[key]`, which yields
`""` for a missing key: a total lookup function. -/
abbrev Arguments := String → String

/-! ## `encoding/json`: marshalling -/

/-- The table `hex = "0123456789abcdef"` of `encoding/json`. -/
def hexDigit (n : Nat) : Char :=
  if n < 10 then Char.ofNat (48 + n) else Char.ofNat (87 + n)

/-- Quotation mark. -/
def cQuote : Char := Char.ofNat 34
/-- Reverse solidus. -/
def cBackslash : Char := Char.ofNat 92
/-- Left curly bracket. -/
def cLBrace : Char := Char.ofNat 123
/-- Right curly bracket. -/
def cRBrace : Char := Char.ofNat 125

/-- How `encodeState.string` (with HTML escaping, the default of `json.Marshal`) writes one
code point: `"` and `\` get a backslash, newline / carriage return / tab their short
escapes, the other control characters and `<`, `>`, `&` a `\u00XX` escape, U+2028 and
U+2029 a `\u202X` escape, everything else itself. (Go 1.22 and later write backspace
and form feed as `\b` and `\f` instead of `\u0008` and `\u000c`; the unmarshaller
reads both forms alike.) -/
def escapeChar (c : Char) : Bytes :=
  if c = cQuote then [cBackslash, cQuote]
  else if c = cBackslash then [cBackslash, cBackslash]
  else if c = '\n' then [cBackslash, 'n']
  else if c = '\r' then [cBackslash, 'r']
  else if c = '\t' then [cBackslash, 't']
  else if c.toNat < 32 ∨ c = '<' ∨ c = '>' ∨ c = '&' then
    [cBackslash, 'u', '0', '0', hexDigit (c.toNat / 16), hexDigit (c.toNat % 16)]
  else if c.toNat = 0x2028 ∨ c.toNat = 0x2029 then
    [cBackslash, 'u', '2', '0', '2', hexDigit (c.toNat % 16)]
  else [c]

/-- The characters between the quotes of a marshalled string. -/
def escapeChars : List Char → Bytes
  | [] => []
  | c :: cs => escapeChar c ++ escapeChars cs

/-- A marshalled Go string: quoted and escaped. -/
def encodeString (s : String) : Bytes :=
  cQuote :: (escapeChars s.toList ++ [cQuote])

/-- Decimal digits of a natural number, most significant first, built like
`strconv.FormatUint`: the last digit is produced first and prepended. -/
def natDigitsAux : Nat → Nat → Bytes → Bytes
  | 0, _, acc => acc
  | fuel + 1, n, acc =>
    let acc1 := Char.ofNat (48 + n % 10) :: acc
    if n / 10 = 0 then acc1 else natDigitsAux fuel (n / 10) acc1

/-- `strconv.FormatUint(n, 10)`. -/
def natDigits (n : Nat) : Bytes := natDigitsAux (n + 1) n []

/-- `strconv.AppendInt(_, n, 10)`: how an `int` field is marshalled. -/
def encodeInt (n : Int) : Bytes :=
  if n < 0 then '-' :: natDigits n.natAbs else natDigits n.natAbs

/-- A marshalled `User`: the three fields in declaration order under their JSON tags. -/
def encodeUser (u : User) : Bytes :=
  [cLBrace] ++ encodeString "id" ++ [':'] ++ encodeString u.Id ++ [','] ++
    encodeString "email" ++ [':'] ++ encodeString u.Email ++ [','] ++
    encodeString "age" ++ [':'] ++ encodeInt u.Age ++ [cRBrace]

/-- The marshalled elements of a slice after the first, each preceded by a comma. -/
def encodeTail : List User → Bytes
  | [] => []
  | u :: us => ',' :: (encodeUser u ++ encodeTail us)

/-- The marshalled elements of a non-nil slice, comma separated. -/
def encodeElems : List User → Bytes
  | [] => []
  | u :: us => encodeUser u ++ encodeTail us

/-- A marshalled `Users` value: the nil slice is `null`, a non-nil slice is an array. -/
def encodeUsers : Users → Bytes
  | .nil => ['n', 'u', 'l', 'l']
  | .mk xs => '[' :: (encodeElems xs ++ [']'])

/-- `json.Marshal(v)` for `v : User`. It has no failing case for this type. -/
def jsonMarshalUser (u : User) : Except GoError Bytes := .ok (encodeUser u)

/-- `json.Marshal(v)` for `v : Users`. It has no failing case for this type. -/
def jsonMarshalUsers (us : Users) : Except GoError Bytes := .ok (encodeUsers us)

/-! ## `encoding/json`: unmarshalling

`json.Unmarshal` first checks that the whole input is one well-formed JSON value and
then stores it into the target. The model parses the input into a `JValue` (failing
with a syntax error exactly when the input is not well formed) and then stores the
value into a `User` or a `Users`. -/

/-- A parsed JSON value. A number keeps its literal text, as the decoder converts it
only once the type of the target is known. -/
inductive JValue where
  | null : JValue
  | bool (b : Bool) : JValue
  | num (lit : Bytes) : JValue
  | str (s : List Char) : JValue
  | arr (xs : List JValue) : JValue
  | obj (kvs : List (List Char × JValue)) : JValue

/-- The scanner's `isSpace`. -/
def isSpace (c : Char) : Bool :=
  c = ' ' || c = '\t' || c = '\r' || c = '\n'

/-- Skips insignificant white space. -/
def skipWS : Bytes → Bytes
  | [] => []
  | c :: cs => if isSpace c then skipWS cs else c :: cs

/-- The value of a hexadecimal digit. -/
def hexVal (c : Char) : Option Nat :=
  if 48 ≤ c.toNat ∧ c.toNat ≤ 57 then some (c.toNat - 48)
  else if 97 ≤ c.toNat ∧ c.toNat ≤ 102 then some (c.toNat - 87)
  else if 65 ≤ c.toNat ∧ c.toNat ≤ 70 then some (c.toNat - 55)
  else none

/-- The decoder's `getu4`: the code unit of a `\uXXXX` escape at the head of the input. -/
def getu4 : Bytes → Option Nat
  | b :: u :: h1 :: h2 :: h3 :: h4 :: _ =>
    if b = cBackslash ∧ u = 'u' then
      match hexVal h1, hexVal h2, hexVal h3, hexVal h4 with
      | some a, some b, some c, some d => some (((a * 16 + b) * 16 + c) * 16 + d)
      | _, _, _, _ => none
    else none
  | _ => none

/-- The character a one-letter escape stands for. -/
def simpleEscape (e : Char) : Option Char :=
  if e = cQuote then some cQuote
  else if e = cBackslash then some cBackslash
  else if e = '/' then some '/'
  else if e = 'b' then some (Char.ofNat 8)
  else if e = 'f' then some (Char.ofNat 12)
  else if e = 'n' then some '\n'
  else if e = 'r' then some '\r'
  else if e = 't' then some '\t'
  else none

/-- The rune a `\uXXXX` escape with code unit `rr` yields, and the input after it,
given the input `rest` that follows the escape: a surrogate followed by a second
escape that completes a valid pair yields the combined rune and consumes both,
another surrogate yields U+FFFD. -/
def decodeEscapedUnit (rr : Nat) (rest : Bytes) : Char × Bytes :=
  if 0xd800 ≤ rr ∧ rr < 0xe000 then
    match getu4 rest with
    | some rr1 =>
      if rr < 0xdc00 ∧ 0xdc00 ≤ rr1 ∧ rr1 < 0xe000 then
        (Char.ofNat ((rr - 0xd800) * 1024 + (rr1 - 0xdc00) + 0x10000), rest.drop 6)
      else (Char.ofNat 0xfffd, rest)
    | none => (Char.ofNat 0xfffd, rest)
  else (Char.ofNat rr, rest)

/-- Puts a decoded character in front of the result of decoding the rest. -/
def consChar (c : Char) (r : Except JsonError (List Char × Bytes)) :
    Except JsonError (List Char × Bytes) :=
  match r with
  | .ok (s, rest) => .ok (c :: s, rest)
  | .error e => .error e

/-- Reads a string literal after its opening quote: the decoded characters and the input
after the closing quote. Control characters and malformed escapes are syntax errors. -/
def parseStringBody : Nat → Bytes → Except JsonError (List Char × Bytes)
  | 0, _ => .error .syntaxError
  | _ + 1, [] => .error .syntaxError
  | fuel + 1, c :: rest =>
    if c = cQuote then .ok ([], rest)
    else if c = cBackslash then
      match rest with
      | [] => .error .syntaxError
      | e :: rest1 =>
        if e = 'u' then
          match getu4 (c :: rest) with
          | none => .error .syntaxError
          | some rr =>
            consChar (decodeEscapedUnit rr (rest1.drop 4)).1
              (parseStringBody fuel (decodeEscapedUnit rr (rest1.drop 4)).2)
        else
          match simpleEscape e with
          | none => .error .syntaxError
          | some ch => consChar ch (parseStringBody fuel rest1)
    else if c.toNat < 32 then .error .syntaxError
    else consChar c (parseStringBody fuel rest)

/-- A decimal digit. -/
def isDigit (c : Char) : Bool := decide (48 ≤ c.toNat ∧ c.toNat ≤ 57)

/-- The optional exponent of a number literal: `lit` is the text read so far. -/
def scanExp (lit : Bytes) (s : Bytes) : Option (Bytes × Bytes) :=
  match s with
  | [] => some (lit, [])
  | e :: r =>
    if e = 'e' ∨ e = 'E' then
      match r with
      | [] => none
      | g :: r1 =>
        if g = '+' ∨ g = '-' then
          if (r1.span isDigit).1 = [] then none
          else some (lit ++ e :: g :: (r1.span isDigit).1, (r1.span isDigit).2)
        else
          if (r.span isDigit).1 = [] then none
          else some (lit ++ e :: (r.span isDigit).1, (r.span isDigit).2)
    else some (lit, s)

/-- The optional fraction of a number literal, then its exponent. -/
def scanFrac (lit : Bytes) (s : Bytes) : Option (Bytes × Bytes) :=
  match s with
  | [] => some (lit, [])
  | d :: r =>
    if d = '.' then
      if (r.span isDigit).1 = [] then none
      else scanExp (lit ++ d :: (r.span isDigit).1) (r.span isDigit).2
    else scanExp lit s

/-- The integer part of a number literal after the optional sign `lit`: a lone `0`, or a
non-zero digit followed by digits. -/
def scanInt (lit : Bytes) (s : Bytes) : Option (Bytes × Bytes) :=
  match s with
  | [] => none
  | d :: r =>
    if d = '0' then scanFrac (lit ++ [d]) r
    else if isDigit d then scanFrac (lit ++ d :: (r.span isDigit).1) (r.span isDigit).2
    else none

/-- Reads a number literal: its text and the input after it. -/
def scanNumber (s : Bytes) : Option (Bytes × Bytes) :=
  match s with
  | [] => none
  | c :: r => if c = '-' then scanInt [c] r else scanInt [] s

/-- Strips the literal `word` from the head of the input. -/
def stripWord : Bytes → Bytes → Option Bytes
  | [], s => some s
  | _ :: _, [] => none
  | w :: ws, c :: cs => if w = c then stripWord ws cs else none

/-- Wraps the elements read by `parseElems` / `parseMembers`. -/
def mapFst {α β γ : Type} (f : α → β) (r : Except JsonError (α × γ)) :
    Except JsonError (β × γ) :=
  match r with
  | .ok (a, c) => .ok (f a, c)
  | .error e => .error e

mutual
/-- Reads one JSON value (after optional white space): the value and the input after it. -/
def parseValue : Nat → Bytes → Except JsonError (JValue × Bytes)
  | 0, _ => .error .syntaxError
  | fuel + 1, s =>
    match skipWS s with
    | [] => .error .syntaxError
    | c :: rest =>
      if c = cLBrace then
        match skipWS rest with
        | [] => .error .syntaxError
        | d :: rest1 =>
          if d = cRBrace then .ok (.obj [], rest1)
          else mapFst JValue.obj (parseMembers fuel rest)
      else if c = '[' then
        match skipWS rest with
        | [] => .error .syntaxError
        | d :: rest1 =>
          if d = ']' then .ok (.arr [], rest1)
          else mapFst JValue.arr (parseElems fuel rest)
      else if c = cQuote then
        mapFst JValue.str (parseStringBody (rest.length + 1) rest)
      else if c = '-' ∨ isDigit c then
        match scanNumber (c :: rest) with
        | some (lit, r) => .ok (.num lit, r)
        | none => .error .syntaxError
      else if c = 't' then
        match stripWord ['r', 'u', 'e'] rest with
        | some r => .ok (.bool true, r)
        | none => .error .syntaxError
      else if c = 'f' then
        match stripWord ['a', 'l', 's', 'e'] rest with
        | some r => .ok (.bool false, r)
        | none => .error .syntaxError
      else if c = 'n' then
        match stripWord ['u', 'l', 'l'] rest with
        | some r => .ok (.null, r)
        | none => .error .syntaxError
      else .error .syntaxError
/-- Reads the elements of a non-empty array up to and including the closing bracket. -/
def parseElems : Nat → Bytes → Except JsonError (List JValue × Bytes)
  | 0, _ => .error .syntaxError
  | fuel + 1, s =>
    match parseValue fuel s with
    | .error e => .error e
    | .ok (v, r) =>
      match skipWS r with
      | [] => .error .syntaxError
      | c :: r1 =>
        if c = ',' then mapFst (List.cons v) (parseElems fuel r1)
        else if c = ']' then .ok ([v], r1)
        else .error .syntaxError
/-- Reads the members of a non-empty object up to and including the closing brace. -/
def parseMembers : Nat → Bytes → Except JsonError (List (List Char × JValue) × Bytes)
  | 0, _ => .error .syntaxError
  | fuel + 1, s =>
    match skipWS s with
    | [] => .error .syntaxError
    | q :: r0 =>
      if q = cQuote then
        match parseStringBody (r0.length + 1) r0 with
        | .error e => .error e
        | .ok (k, r1) =>
          match skipWS r1 with
          | [] => .error .syntaxError
          | c :: r2 =>
            if c = ':' then
              match parseValue fuel r2 with
              | .error e => .error e
              | .ok (v, r3) =>
                match skipWS r3 with
                | [] => .error .syntaxError
                | d :: r4 =>
                  if d = ',' then mapFst (List.cons (k, v)) (parseMembers fuel r4)
                  else if d = cRBrace then .ok ([(k, v)], r4)
                  else .error .syntaxError
            else .error .syntaxError
      else .error .syntaxError
end

/-- The validity check and parse of a whole input: one value, then only white space. -/
def parseJSON (s : Bytes) : Except JsonError JValue :=
  match parseValue (2 * s.length + 2) s with
  | .error e => .error e
  | .ok (v, r) => if skipWS r = [] then .ok v else .error .syntaxError

/-! ### Storing a parsed value into `User` / `Users` -/

/-- Whether the object key `key` selects the struct field tagged `name` (lower-case
ASCII letters): an exact match, or a match up to ASCII letter case. -/
def keyMatches (name : String) (key : List Char) : Bool :=
  decide (key.map Char.toLower = name.toList)

/-- The value of a string of decimal digits. -/
def digitsVal (ds : Bytes) : Nat :=
  ds.foldl (fun a c => 10 * a + (c.toNat - 48)) 0

/-- `strconv.ParseInt(lit, 10, 64)` on a number literal the scanner accepted: an optional
minus sign and decimal digits only, with a value that fits 64 bits. -/
def parseIntLit (lit : Bytes) : Option Int :=
  match lit with
  | [] => none
  | c :: ds =>
    if c = '-' then
      if ds ≠ [] ∧ ds.all isDigit = true ∧ digitsVal ds ≤ 2 ^ 63 then
        some (-(digitsVal ds : Int))
      else none
    else
      if lit.all isDigit = true ∧ digitsVal lit < 2 ^ 63 then some (digitsVal lit : Int)
      else none

/-- Stores a JSON value into a string field holding `old`: a string is stored (after
unquoting), `null` leaves the field as it is, any other value is an
`UnmarshalTypeError`. -/
def storeString (old : String) (v : JValue) : Except JsonError String :=
  match v with
  | .str s => .ok (String.mk s)
  | .null => .ok old
  | _ => .error .typeMismatch

/-- Stores a JSON value into an `int` field holding `old`: a number literal that
`strconv.ParseInt` accepts is stored, `null` leaves the field as it is, any other value
(a number with a fraction or exponent, or out of range, included) is an
`UnmarshalTypeError`. -/
def storeInt (old : Int) (v : JValue) : Except JsonError Int :=
  match v with
  | .num lit =>
    match parseIntLit lit with
    | some n => .ok n
    | none => .error .typeMismatch
  | .null => .ok old
  | _ => .error .typeMismatch

/-- Stores the member `key: v` of a JSON object into the struct; a key that selects no
field is skipped. -/
def setField (u : User) (key : List Char) (v : JValue) : Except JsonError User :=
  if keyMatches "id" key then
    match storeString u.Id v with
    | .ok s => .ok { u with Id := s }
    | .error e => .error e
  else if keyMatches "email" key then
    match storeString u.Email v with
    | .ok s => .ok { u with Email := s }
    | .error e => .error e
  else if keyMatches "age" key then
    match storeInt u.Age v with
    | .ok n => .ok { u with Age := n }
    | .error e => .error e
  else .ok u

/-- Stores the members of an object one after the other (a repeated key overwrites). -/
def decodeMembers : User → List (List Char × JValue) → Except JsonError User
  | u, [] => .ok u
  | u, (k, v) :: kvs =>
    match setField u k v with
    | .ok u1 => decodeMembers u1 kvs
    | .error e => .error e

/-- Stores a JSON value into a zero `User`: an object by its members, `null` changes
nothing, anything else is an `UnmarshalTypeError`. -/
def decodeUser : JValue → Except JsonError User
  | .null => .ok User.zero
  | .obj kvs => decodeMembers User.zero kvs
  | _ => .error .typeMismatch

/-- Stores the elements of a JSON array into fresh slice elements. -/
def decodeElems : List JValue → Except JsonError (List User)
  | [] => .ok []
  | v :: vs =>
    match decodeUser v with
    | .error e => .error e
    | .ok u =>
      match decodeElems vs with
      | .error e => .error e
      | .ok us => .ok (u :: us)

/-- Stores a JSON value into a nil `Users`: `null` leaves it nil, an array yields a
non-nil slice, anything else is an `UnmarshalTypeError`. -/
def decodeUsers : JValue → Except JsonError Users
  | .null => .ok .nil
  | .arr xs =>
    match decodeElems xs with
    | .ok us => .ok (.mk us)
    | .error e => .error e
  | _ => .error .typeMismatch

/-- `json.Unmarshal(content, &data)` for `var data Users` (nil before the call): the
error, or the value of `data` afterwards. -/
def jsonUnmarshalUsers (content : Bytes) : Except GoError Users :=
  match parseJSON content with
  | .error e => .error (.json e)
  | .ok v =>
    match decodeUsers v with
    | .error e => .error (.json e)
    | .ok us => .ok us

/-- `json.Unmarshal([]byte(item), &userItem)` for `var userItem User` (zero before the
call): the error, or the value of `userItem` afterwards. -/
def jsonUnmarshalUser (item : Bytes) : Except GoError User :=
  match parseJSON item with
  | .error e => .error (.json e)
  | .ok v =>
    match decodeUser v with
    | .error e => .error (.json e)
    | .ok u => .ok u

/-! ## `*os.File` and `io.Writer` -/

/-- The state of the file behind an `*os.File` opened with
`O_CREATE|O_RDWR|O_APPEND`: its content, the read offset of the handle, and for each
of the three calls the program makes the error the OS answers with, if any. -/
structure File where
  content : Bytes
  offset : Nat
  readFault : Option GoError
  truncFault : Option GoError
  writeFault : Option GoError
deriving DecidableEq, Repr

/-- A handle just opened on a file with the given content, on which no call fails. -/
def File.opened (content : Bytes) : File := ⟨content, 0, none, none, none⟩

/-- `ioutil.ReadAll(file)`: the bytes from the read offset to the end of the file, and
the handle left at the end; or the read error. -/
def File.readAll (f : File) : Except GoError Bytes × File :=
  match f.readFault with
  | some e => (.error e, f)
  | none => (.ok (f.content.drop f.offset), { f with offset := max f.offset f.content.length })

/-- `file.Truncate(0)`: the file becomes empty (the offset is not moved); or the error. -/
def File.truncate0 (f : File) : Option GoError × File :=
  match f.truncFault with
  | some e => (some e, f)
  | none => (none, { f with content := [] })

/-- `file.Write(b)` on a handle in append mode: the bytes go to the end of the file
whatever the offset is; or the error (nothing written). -/
def File.write (f : File) (b : Bytes) : Option GoError × File :=
  match f.writeFault with
  | some e => (some e, f)
  | none => (none, { f with content := f.content ++ b, offset := (f.content ++ b).length })

/-- An `io.Writer`: the bytes written to it so far, and the error its `Write` answers
with, if any. -/
structure Writer where
  out : Bytes
  fault : Option GoError
deriving DecidableEq, Repr

/-- A writer that accepts every write and has received nothing yet. -/
def Writer.empty : Writer := ⟨[], none⟩

/-- `writer.Write(b)`. -/
def Writer.write (w : Writer) (b : Bytes) : Option GoError × Writer :=
  match w.fault with
  | some e => (some e, w)
  | none => (none, { w with out := w.out ++ b })

/-! ## The operations (`main.go` lines 88-218) -/

/-- `func add(item string, file *os.File) error`: the returned error and the file
afterwards. -/
def add (item : String) (file : File) : Option GoError × File :=
  if item = "" then (some .itemError, file)
  else
    match file.readAll with
    | (.error readEr, file) => (some (.wrap "error while reading: " readEr), file)
    | (.ok content, file) =>
      -- `var data Users` is nil unless the content is non-empty and unmarshals
      match (if content.length > 0 then jsonUnmarshalUsers content else .ok Users.nil) with
      | .error e => (some e, file)
      | .ok data =>
        match jsonUnmarshalUser item.toList with
        | .error itemParseErr =>
          (some (.wrap "error during item parsing: " itemParseErr), file)
        | .ok userItem =>
          let data := data.append userItem
          match jsonMarshalUsers data with
          | .error marshErr => (some marshErr, file)
          | .ok res =>
            -- the result of `file.Truncate(0)` is discarded
            let file := (file.truncate0).2
            match file.write res with
            | (some err, file) => (some err, file)
            | (none, file) => (none, file)

/-- `func list(file *os.File, writer io.Writer) error`. -/
def list (file : File) (writer : Writer) : Option GoError × File × Writer :=
  match file.readAll with
  | (.error err, file) => (some err, file, writer)
  | (.ok content, file) =>
    match writer.write content with
    | (some wrErr, writer) => (some wrErr, file, writer)
    | (none, writer) => (none, file, writer)

/-- The loop of `findById`: `foundUser` after ranging over the elements. -/
def findLoop (id : String) : User → List User → User
  | foundUser, [] => foundUser
  | foundUser, i :: rest => findLoop id (if i.Id = id then i else foundUser) rest

/-- `func findById(id string, file *os.File, writer io.Writer) error`. -/
def findById (id : String) (file : File) (writer : Writer) : Option GoError × File × Writer :=
  if id = "" then (some .idFlagError, file, writer)
  else
    match file.readAll with
    | (.error err, file) => (some err, file, writer)
    | (.ok content, file) =>
      match jsonUnmarshalUsers content with
      | .error err => (some err, file, writer)
      | .ok data =>
        let foundUser := findLoop id User.zero data.toList
        match jsonMarshalUser foundUser with
        | .error marshErr => (some marshErr, file, writer)
        | .ok res =>
          match writer.write res with
          | (some writeErr, writer) => (some writeErr, file, writer)
          | (none, writer) => (none, file, writer)

/-- The loop of `remove`: `newData` after ranging over the elements, appending each
one whose id differs. -/
def removeLoop (id : String) : Users → List User → Users
  | newData, [] => newData
  | newData, i :: rest => removeLoop id (if i.Id ≠ id then newData.append i else newData) rest

/-- `func remove(id string, file *os.File) error`. When the final write fails the
function returns the variable `err`, which at that point holds the `nil` that
`json.Unmarshal` returned, not `writeErr`. -/
def remove (id : String) (file : File) : Option GoError × File :=
  if id = "" then (some .idFlagError, file)
  else
    match file.readAll with
    | (.error err, file) => (some err, file)
    | (.ok content, file) =>
      match jsonUnmarshalUsers content with
      | .error err => (some err, file)
      | .ok data =>
        let err : Option GoError := none
        let newData := removeLoop id Users.nil data.toList
        if data.len = newData.len then
          (some (.errorf ("Item with id " ++ id ++ " not found")), file)
        else
          match jsonMarshalUsers newData with
          | .error marshErr => (some marshErr, file)
          | .ok res =>
            -- the result of `file.Truncate(0)` is discarded
            let file := (file.truncate0).2
            match file.write res with
            | (some _writeErr, file) => (err, file)
            | (none, file) => (none, file)

/-! ## The entry point (`main.go` lines 45-86) -/

/-- `func doOperation(args Arguments, file *os.File, writer io.Writer) error`. -/
def doOperation (args : Arguments) (file : File) (writer : Writer) :
    Option GoError × File × Writer :=
  if args "operation" = "add" then
    ((add (args "item") file).1, (add (args "item") file).2, writer)
  else if args "operation" = "list" then list file writer
  else if args "operation" = "findById" then findById (args "id") file writer
  else if args "operation" = "remove" then
    ((remove (args "id") file).1, (remove (args "id") file).2, writer)
  else (some .wrongOperationError, file, writer)

/-- `func Perform(args Arguments, writer io.Writer) error`. The call
`os.OpenFile(fileName, O_CREATE|O_RDWR|O_APPEND, 0666)` is the parameter `osOpenFile`.
The result is the returned error, the state of the opened file when the function
returns (`none` when no file was opened) and the writer. -/
def Perform (osOpenFile : String → Except GoError File) (args : Arguments) (writer : Writer) :
    Option GoError × Option File × Writer :=
  if args "fileName" = "" then (some .fileNameError, none, writer)
  else if args "operation" = "" then (some .noOperationError, none, writer)
  else
    let fileName := args "fileName"
    match osOpenFile fileName with
    | .error err => (some err, none, writer)
    | .ok file =>
      match doOperation args file writer with
      | (some operationErr, file, writer) => (some operationErr, some file, writer)
      | (none, file, writer) => (none, some file, writer)

/-! ## Auxiliary notions used in the statements -/

/-- The range of a Go `int` (64 bit). -/
def inInt64 (n : Int) : Prop := -(2 : Int) ^ 63 ≤ n ∧ n < (2 : Int) ^ 63

/-- The parsed form of a marshalled `User`. -/
def userValue (u : User) : JValue :=
  .obj [("id".toList, .str u.Id.toList), ("email".toList, .str u.Email.toList),
    ("age".toList, .num (encodeInt u.Age))]

/-- The store of the spec's example after its `add`: one record with id 1. -/
def sampleContent : Bytes :=
  "[\x7b\"id\":\"1\",\"email\":\"a@x.com\",\"age\":30\x7d]".toList

/-- The record held by `sampleContent`. -/
def sampleUser : User := ⟨"1", "a@x.com", 30⟩

/-- A payload for `add` whose id repeats the one of `sampleUser`. -/
def sampleItem : String := "\x7b\"id\":\"1\",\"email\":\"b@x.com\",\"age\":41\x7d"

/-- The record `sampleItem` unmarshals to. -/
def sampleItemUser : User := ⟨"1", "b@x.com", 41⟩

/-- A second record, with another id. -/
def sampleOther : User := ⟨"2", "c@x.com", 27⟩

/-- A store of two records with different ids. -/
def sampleTwo : Bytes :=
  ("[\x7b\"id\":\"1\",\"email\":\"a@x.com\",\"age\":30\x7d," ++
    "\x7b\"id\":\"2\",\"email\":\"c@x.com\",\"age\":27\x7d]").toList

/-- A store of two records that share id 1. -/
def sampleDup : Bytes :=
  ("[\x7b\"id\":\"1\",\"email\":\"a@x.com\",\"age\":30\x7d," ++
    "\x7b\"id\":\"1\",\"email\":\"b@x.com\",\"age\":41\x7d]").toList

/-- An `os.OpenFile` that opens every path on `sampleContent`. -/
def sampleOpen : String → Except GoError File := fun _ => .ok (File.opened sampleContent)

/-- Arguments without a file name (the operation is present). -/
def argsNoFile : Arguments := fun k => if k = "operation" then "list" else ""

/-- Arguments with a file name and no operation. -/
def argsNoOperation : Arguments := fun k => if k = "fileName" then "users.json" else ""

/-- Arguments with a file name and an operation the program does not know. -/
def argsWrongOperation : Arguments := fun k =>
  if k = "fileName" then "users.json" else if k = "operation" then "update" else ""

/-! ## Facts about the loops and the healthy path of each operation -/

theorem removeLoop_toList (id : String) (xs : List User) (acc : Users) :
    (removeLoop id acc xs).toList = acc.toList ++ xs.filter (fun u => decide (u.Id ≠ id)) := by
  induction xs generalizing acc with
  | nil => simp [removeLoop]
  | cons x xs ih =>
    simp only [removeLoop, ih]
    by_cases h : x.Id = id
    · simp [h]
    · simp [h, Users.append, Users.toList]

theorem removeLoop_nil_of_all (id : String) (xs : List User) (h : ∀ u ∈ xs, u.Id = id) :
    removeLoop id Users.nil xs = Users.nil := by
  induction xs with
  | nil => rfl
  | cons x xs ih =>
    have hx : x.Id = id := h x (List.mem_cons_self _ _)
    simp only [removeLoop, hx, ne_eq, not_true_eq_false, if_false]
    exact ih (fun u hu => h u (List.mem_cons_of_mem _ hu))

theorem findLoop_none (id : String) (xs : List User) (acc : User) (h : ∀ u ∈ xs, u.Id ≠ id) :
    findLoop id acc xs = acc := by
  induction xs generalizing acc with
  | nil => rfl
  | cons x xs ih =>
    have hx : x.Id ≠ id := h x (List.mem_cons_self _ _)
    simp only [findLoop, if_neg hx]
    exact ih acc (fun u hu => h u (List.mem_cons_of_mem _ hu))

theorem findLoop_append (id : String) (xs ys : List User) (acc : User) :
    findLoop id acc (xs ++ ys) = findLoop id (findLoop id acc xs) ys := by
  induction xs generalizing acc with
  | nil => rfl
  | cons x xs ih =>
    simp only [List.cons_append, findLoop]
    exact ih _

theorem findLoop_last (id : String) (pre post : List User) (u acc : User) (hu : u.Id = id)
    (hpost : ∀ v ∈ post, v.Id ≠ id) : findLoop id acc (pre ++ u :: post) = u := by
  rw [findLoop_append]
  simp only [findLoop, if_pos hu]
  exact findLoop_none id post u hpost

/-- The healthy path of `add` on a freshly opened file. -/
theorem add_opened_ok (item : String) (content : Bytes) (d : Users) (r : User)
    (hitem : item ≠ "")
    (hd : (if content.length > 0 then jsonUnmarshalUsers content else .ok Users.nil) = .ok d)
    (hr : jsonUnmarshalUser item.toList = .ok r) :
    add item (File.opened content) =
      (none, ⟨encodeUsers (d.append r), (encodeUsers (d.append r)).length, none, none, none⟩) := by
  simp only [add, if_neg hitem, File.readAll, File.opened, List.drop_zero]
  rw [hd]
  simp only [hr, jsonMarshalUsers, File.truncate0, File.write, List.nil_append]

/-! ## `encoding/json`: unmarshalling reads back what marshalling wrote -/

/-- Reading back one escaped character. -/
theorem parseStringBody_escapeChar (c : Char) (tail : Bytes) (fuel : Nat) :
    parseStringBody (fuel + 1) (escapeChar c ++ tail) = consChar c (parseStringBody fuel tail) := by
  unfold escapeChar
  split_ifs with h1 h2 h3 h4 h5 h6 h7
  · subst h1; rfl
  · subst h2; rfl
  · subst h3; rfl
  · subst h4; rfl
  · subst h5; rfl
  · rcases h6 with h | h | h | h
    · obtain ⟨n, hn, rfl⟩ : ∃ n, n < 32 ∧ c = Char.ofNat n :=
        ⟨c.toNat, h, (Char.ofNat_toNat c).symm⟩
      clear h h1 h2 h3 h4 h5
      interval_cases n <;> rfl
    · subst h; rfl
    · subst h; rfl
    · subst h; rfl
  · rcases h7 with h | h
    · obtain rfl : c = Char.ofNat 0x2028 := by rw [← h]; exact (Char.ofNat_toNat c).symm
      rfl
    · obtain rfl : c = Char.ofNat 0x2029 := by rw [← h]; exact (Char.ofNat_toNat c).symm
      rfl
  · have h32 : ¬ c.toNat < 32 := fun h => h6 (Or.inl h)
    simp only [List.singleton_append, parseStringBody, if_neg h1, if_neg h2, if_neg h32]
    rfl

/-- Reading back an escaped string up to its closing quote. -/
theorem parseStringBody_escapeChars (s : List Char) (rest : Bytes) (fuel : Nat)
    (hf : s.length < fuel) :
    parseStringBody fuel (escapeChars s ++ cQuote :: rest) = .ok (s, rest) := by
  induction s generalizing fuel with
  | nil =>
    obtain ⟨k, rfl⟩ : ∃ k, fuel = k + 1 := ⟨fuel - 1, by omega⟩
    simp [escapeChars, parseStringBody]
  | cons c cs ih =>
    obtain ⟨k, rfl⟩ : ∃ k, fuel = k + 1 := ⟨fuel - 1, by omega⟩
    simp only [List.length_cons, Nat.add_lt_add_iff_right] at hf
    simp only [escapeChars, List.append_assoc]
    rw [parseStringBody_escapeChar, ih k hf]
    rfl

theorem length_le_escapeChars (s : List Char) : s.length ≤ (escapeChars s).length := by
  induction s with
  | nil => simp [escapeChars]
  | cons c cs ih =>
    have : 1 ≤ (escapeChar c).length := by
      unfold escapeChar
      split_ifs <;> simp
    simp only [escapeChars, List.length_cons, List.length_append]
    omega


/-! ### Numbers -/

theorem isDigit_digit (d : Nat) (h : d < 10) : isDigit (Char.ofNat (48 + d)) = true := by
  interval_cases d <;> decide

theorem digit_toNat (d : Nat) (h : d < 10) : (Char.ofNat (48 + d)).toNat - 48 = d := by
  interval_cases d <;> decide

theorem natDigitsAux_all (fuel n : Nat) (acc : Bytes) (hacc : ∀ c ∈ acc, isDigit c = true) :
    ∀ c ∈ natDigitsAux fuel n acc, isDigit c = true := by
  induction fuel generalizing n acc with
  | zero => simpa [natDigitsAux] using hacc
  | succ k ih =>
    have hcons : ∀ c ∈ Char.ofNat (48 + n % 10) :: acc, isDigit c = true := by
      intro c hc
      rcases List.mem_cons.mp hc with h | h
      · rw [h]; exact isDigit_digit _ (Nat.mod_lt _ (by decide))
      · exact hacc c h
    simp only [natDigitsAux]
    split_ifs
    · exact hcons
    · exact ih _ _ hcons

theorem natDigits_all (n : Nat) : ∀ c ∈ natDigits n, isDigit c = true :=
  natDigitsAux_all _ _ _ (by simp)

theorem digitsVal_foldl (acc : Bytes) (a : Nat) :
    acc.foldl (fun a c => 10 * a + (c.toNat - 48)) a =
      a * 10 ^ acc.length + digitsVal acc := by
  unfold digitsVal
  induction acc generalizing a with
  | nil => simp
  | cons c cs ih =>
    simp only [List.foldl_cons, List.length_cons]
    rw [ih, ih (10 * 0 + (c.toNat - 48))]
    ring

theorem natDigitsAux_val (fuel n : Nat) (acc : Bytes) (hf : n < fuel) :
    digitsVal (natDigitsAux fuel n acc) = n * 10 ^ acc.length + digitsVal acc := by
  induction fuel generalizing n acc with
  | zero => omega
  | succ k ih =>
    have hd : (Char.ofNat (48 + n % 10)).toNat - 48 = n % 10 :=
      digit_toNat _ (Nat.mod_lt _ (by decide))
    have hcons : digitsVal (Char.ofNat (48 + n % 10) :: acc) =
        (n % 10) * 10 ^ acc.length + digitsVal acc := by
      simp only [digitsVal, List.foldl_cons]
      rw [digitsVal_foldl, hd]
      simp [digitsVal]
    simp only [natDigitsAux]
    split_ifs with h0
    · rw [hcons]
      have : n % 10 = n := Nat.mod_eq_of_lt (by omega)
      rw [this]
    · rw [ih (n / 10) _ (by omega), hcons, List.length_cons, pow_succ]
      have hn : n * 10 ^ acc.length = (10 * (n / 10) + n % 10) * 10 ^ acc.length := by
        rw [Nat.div_add_mod]
      rw [hn]
      ring

theorem digitsVal_natDigits (n : Nat) : digitsVal (natDigits n) = n := by
  unfold natDigits
  rw [natDigitsAux_val _ _ _ (Nat.lt_succ_self n)]
  simp [digitsVal]


theorem natDigits_zero : natDigits 0 = ['0'] := by decide

/-- A positive number is printed as a non-zero digit followed by digits. -/
theorem natDigitsAux_head (fuel n : Nat) (acc : Bytes) (hn : 0 < n) (hf : n < fuel) :
    ∃ d ds, natDigitsAux fuel n acc = d :: ds ∧ isDigit d = true ∧ d ≠ '0' := by
  induction fuel generalizing n acc with
  | zero => omega
  | succ k ih =>
    simp only [natDigitsAux]
    split_ifs with h0
    · refine ⟨_, _, rfl, isDigit_digit _ (Nat.mod_lt _ (by decide)), ?_⟩
      have h10 : n < 10 := by omega
      interval_cases n <;> decide
    · exact ih (n / 10) _ (by omega) (by omega)

theorem natDigits_pos (n : Nat) (hn : 0 < n) :
    ∃ d ds, natDigits n = d :: ds ∧ isDigit d = true ∧ d ≠ '0' :=
  natDigitsAux_head _ _ _ hn (Nat.lt_succ_self n)

theorem span_digits (ds rest : Bytes) (c : Char) (hds : ∀ x ∈ ds, isDigit x = true)
    (hc : isDigit c = false) :
    (ds ++ c :: rest).span isDigit = (ds, c :: rest) := by
  induction ds with
  | nil => simp [List.span, List.span.loop, hc]
  | cons d ds ih =>
    have hd : isDigit d = true := hds d (List.mem_cons_self _ _)
    have := ih (fun x hx => hds x (List.mem_cons_of_mem _ hx))
    rw [List.span_eq_take_drop] at this ⊢
    simp only [List.cons_append, List.takeWhile_cons, hd, List.dropWhile_cons, if_true]
    simp only [Prod.mk.injEq] at this ⊢
    exact ⟨by rw [this.1], this.2⟩

/-- The scanner reads back a printed natural number that a closing brace follows. -/
theorem scanInt_natDigits (n : Nat) (lit rest : Bytes) :
    scanInt lit (natDigits n ++ cRBrace :: rest) = some (lit ++ natDigits n, cRBrace :: rest) := by
  rcases Nat.eq_zero_or_pos n with h | h
  · subst h
    rw [natDigits_zero]
    rfl
  · obtain ⟨d, ds, hds, hd, hd0⟩ := natDigits_pos n h
    have hall : ∀ x ∈ ds, isDigit x = true := fun x hx => by
      have := natDigits_all n x
      rw [hds] at this
      exact this (List.mem_cons_of_mem _ hx)
    rw [hds]
    simp only [List.cons_append, scanInt, if_neg hd0, hd, if_true,
      span_digits ds rest cRBrace hall (by decide)]
    rfl


theorem natDigits_ne_nil (n : Nat) : natDigits n ≠ [] := by
  rcases Nat.eq_zero_or_pos n with h | h
  · subst h; decide
  · obtain ⟨d, ds, hds, -, -⟩ := natDigits_pos n h
    rw [hds]; simp

theorem natDigits_head_ne_minus (n : Nat) : ∀ d ds, natDigits n = d :: ds → d ≠ '-' := by
  intro d ds h hd
  have := natDigits_all n d (by rw [h]; exact List.mem_cons_self _ _)
  rw [hd] at this
  exact absurd this (by decide)

theorem all_isDigit_natDigits (n : Nat) : (natDigits n).all isDigit = true := by
  rw [List.all_eq_true]
  exact natDigits_all n

theorem parseIntLit_encodeInt (n : Int) (h : inInt64 n) : parseIntLit (encodeInt n) = some n := by
  obtain ⟨hlo, hhi⟩ := h
  unfold encodeInt
  split_ifs with hneg
  · have hv : ((n.natAbs : Nat) : Int) = -n := by omega
    have hle : n.natAbs ≤ 2 ^ 63 := by
      have : ((n.natAbs : Nat) : Int) ≤ 2 ^ 63 := by omega
      exact_mod_cast this
    simp only [parseIntLit, if_true, ne_eq, natDigits_ne_nil, not_false_eq_true,
      all_isDigit_natDigits, digitsVal_natDigits, hle, and_self, hv, neg_neg]
  · have hv : ((n.natAbs : Nat) : Int) = n := by omega
    have hlt : n.natAbs < 2 ^ 63 := by
      have : ((n.natAbs : Nat) : Int) < 2 ^ 63 := by omega
      exact_mod_cast this
    rcases hds : natDigits n.natAbs with _ | ⟨d, ds⟩
    · exact absurd hds (natDigits_ne_nil _)
    · have hd := natDigits_head_ne_minus _ d ds hds
      simp only [parseIntLit, if_neg hd]
      rw [← hds]
      simp only [all_isDigit_natDigits, digitsVal_natDigits, hlt, and_self, if_true, hv]

theorem scanNumber_encodeInt (n : Int) (rest : Bytes) :
    scanNumber (encodeInt n ++ cRBrace :: rest) = some (encodeInt n, cRBrace :: rest) := by
  unfold encodeInt
  split_ifs with hneg
  · simp only [List.cons_append, scanNumber, if_true]
    exact scanInt_natDigits _ _ _
  · rcases hds : natDigits n.natAbs with _ | ⟨d, ds⟩
    · exact absurd hds (natDigits_ne_nil _)
    · have hd := natDigits_head_ne_minus _ d ds hds
      simp only [List.cons_append, scanNumber, if_neg hd]
      rw [← List.cons_append, ← hds]
      exact scanInt_natDigits _ _ _

theorem encodeInt_head (n : Int) :
    ∃ c cs, encodeInt n = c :: cs ∧ (c = '-' ∨ isDigit c = true) := by
  unfold encodeInt
  split_ifs with hneg
  · exact ⟨_, _, rfl, Or.inl rfl⟩
  · rcases hds : natDigits n.natAbs with _ | ⟨d, ds⟩
    · exact absurd hds (natDigits_ne_nil _)
    · exact ⟨d, ds, rfl, Or.inr (natDigits_all _ d (by rw [hds]; exact List.mem_cons_self _ _))⟩

theorem skipWS_cons (c : Char) (cs : Bytes) (h : isSpace c = false) :
    skipWS (c :: cs) = c :: cs := by
  simp [skipWS, h]

theorem not_space_of_minus_or_digit (c : Char) (h : c = '-' ∨ isDigit c = true) :
    isSpace c = false ∧ c ≠ cLBrace ∧ c ≠ '[' ∧ c ≠ cQuote := by
  rcases h with h | h
  · subst h; decide
  · simp only [isDigit, decide_eq_true_eq] at h
    refine ⟨?_, ?_, ?_, ?_⟩
    · cases hs : isSpace c
      · rfl
      · simp only [isSpace, Bool.or_eq_true, decide_eq_true_eq] at hs
        rcases hs with ((hs | hs) | hs) | hs <;> (subst hs; revert h; decide)
    · rintro rfl; revert h; decide
    · rintro rfl; revert h; decide
    · rintro rfl; revert h; decide

/-- The parser reads back a marshalled `int` that a closing brace follows. -/
theorem parseValue_encodeInt (n : Int) (rest : Bytes) (fuel : Nat) :
    parseValue (fuel + 1) (encodeInt n ++ cRBrace :: rest) =
      .ok (.num (encodeInt n), cRBrace :: rest) := by
  have hscan := scanNumber_encodeInt n rest
  obtain ⟨c, cs, hcs, hc⟩ := encodeInt_head n
  obtain ⟨h1, h2, h3, h4⟩ := not_space_of_minus_or_digit c hc
  rw [hcs] at hscan ⊢
  simp only [List.cons_append] at hscan ⊢
  simp only [parseValue, skipWS_cons _ _ h1, if_neg h2, if_neg h3, if_neg h4, hc, if_true, hscan]

/-- The parser reads back a marshalled string. -/
theorem parseValue_string (s : List Char) (rest : Bytes) (fuel : Nat) :
    parseValue (fuel + 1) (cQuote :: (escapeChars s ++ cQuote :: rest)) = .ok (.str s, rest) := by
  have hlen : s.length < (escapeChars s ++ cQuote :: rest).length + 1 := by
    have := length_le_escapeChars s
    simp only [List.length_append, List.length_cons]
    omega
  have h1 : isSpace cQuote = false := by decide
  have h2 : cQuote ≠ cLBrace := by decide
  have h3 : cQuote ≠ '[' := by decide
  simp only [parseValue, skipWS_cons _ _ h1, if_neg h2, if_neg h3, if_true,
    parseStringBody_escapeChars s rest _ hlen, mapFst]


theorem parseMembers_step (k : List Char) (v : JValue) (valtext r4 : Bytes) (d : Char)
    (fuel : Nat) (hv : parseValue fuel valtext = .ok (v, d :: r4)) (hd : isSpace d = false) :
    parseMembers (fuel + 1) (cQuote :: (escapeChars k ++ cQuote :: ':' :: valtext)) =
      if d = ',' then mapFst (List.cons (k, v)) (parseMembers fuel r4)
      else if d = cRBrace then .ok ([(k, v)], r4)
      else .error .syntaxError := by
  have hlen : k.length < (escapeChars k ++ cQuote :: ':' :: valtext).length + 1 := by
    have := length_le_escapeChars k
    simp only [List.length_append, List.length_cons]
    omega
  have h1 : isSpace cQuote = false := by decide
  have h2 : isSpace ':' = false := by decide
  simp only [parseMembers, skipWS_cons _ _ h1, if_true,
    parseStringBody_escapeChars k _ _ hlen, skipWS_cons _ _ h2, hv, skipWS_cons _ _ hd]

theorem encodeUser_append (u : User) (rest : Bytes) :
    encodeUser u ++ rest =
      cLBrace :: cQuote :: (escapeChars "id".toList ++ cQuote :: ':' :: cQuote ::
        (escapeChars u.Id.toList ++ cQuote :: ',' :: cQuote ::
          (escapeChars "email".toList ++ cQuote :: ':' :: cQuote ::
            (escapeChars u.Email.toList ++ cQuote :: ',' :: cQuote ::
              (escapeChars "age".toList ++ cQuote :: ':' ::
                (encodeInt u.Age ++ cRBrace :: rest)))))) := by
  simp [encodeUser, encodeString]

/-- The parser reads back a marshalled `User`. -/
theorem parseValue_encodeUser (u : User) (rest : Bytes) (fuel : Nat) :
    parseValue (fuel + 5) (encodeUser u ++ rest) = .ok (userValue u, rest) := by
  rw [encodeUser_append]
  have h1 : isSpace cLBrace = false := by decide
  have h2 : isSpace cQuote = false := by decide
  have h3 : cQuote ≠ cRBrace := by decide
  have hc : isSpace ',' = false := by decide
  have hb : isSpace cRBrace = false := by decide
  have hcb : cRBrace ≠ ',' := by decide
  simp only [parseValue, skipWS_cons _ _ h1, if_true, skipWS_cons _ _ h2, if_neg h3]
  rw [parseMembers_step _ _ _ _ _ _ (parseValue_string u.Id.toList _ (fuel + 2)) hc]
  rw [if_pos rfl]
  rw [parseMembers_step _ _ _ _ _ _ (parseValue_string u.Email.toList _ (fuel + 1)) hc]
  rw [if_pos rfl]
  rw [parseMembers_step _ _ _ _ _ _ (parseValue_encodeInt u.Age _ fuel) hb]
  rw [if_neg hcb, if_pos rfl]
  rfl


theorem parseElems_succ (fuel : Nat) (s : Bytes) :
    parseElems (fuel + 1) s =
      match parseValue fuel s with
      | .error e => .error e
      | .ok (v, r) =>
        match skipWS r with
        | [] => .error .syntaxError
        | c :: r1 =>
          if c = ',' then mapFst (List.cons v) (parseElems fuel r1)
          else if c = ']' then .ok ([v], r1)
          else .error .syntaxError := by
  rw [parseElems]

theorem skipWS_nil : skipWS [] = [] := rfl

theorem parseElems_encode (us : List User) (u : User) (rest : Bytes) (fuel : Nat)
    (hf : us.length + 6 ≤ fuel) :
    parseElems fuel (encodeUser u ++ (encodeTail us ++ ']' :: rest)) =
      .ok (userValue u :: us.map userValue, rest) := by
  induction us generalizing u fuel with
  | nil =>
    obtain ⟨k, rfl⟩ : ∃ k, fuel = (k + 5) + 1 := ⟨fuel - 6, by simp at hf; omega⟩
    have hb : isSpace ']' = false := by decide
    have hne : ']' ≠ ',' := by decide
    rw [parseElems_succ]
    simp only [encodeTail, List.nil_append, parseValue_encodeUser,
      skipWS_cons _ _ hb, if_neg hne, if_true, List.map_nil]
  | cons v vs ih =>
    obtain ⟨k, rfl⟩ : ∃ k, fuel = (k + 5) + 1 := ⟨fuel - 6, by simp at hf; omega⟩
    have hc : isSpace ',' = false := by decide
    have hk : vs.length + 6 ≤ k + 5 := by simp at hf; omega
    rw [parseElems_succ]
    simp only [encodeTail, List.cons_append, List.append_assoc,
      parseValue_encodeUser, skipWS_cons _ _ hc, if_true, ih v (k + 5) hk, mapFst, List.map_cons]

theorem length_le_encodeTail (us : List User) : us.length ≤ (encodeTail us).length := by
  induction us with
  | nil => simp [encodeTail]
  | cons u us ih =>
    simp only [encodeTail, List.length_cons, List.length_append]
    omega

/-- The parser reads back a marshalled `Users` value. -/
theorem parseJSON_encodeUsers (us : List User) :
    parseJSON (encodeUsers (.mk us)) = .ok (.arr (us.map userValue)) := by
  cases us with
  | nil => rfl
  | cons u us =>
    have hlen : us.length + 6 ≤
        2 * (encodeUsers (.mk (u :: us))).length + 2 - 1 := by
      have := length_le_encodeTail us
      have h1 : 1 ≤ (encodeUser u).length := by simp [encodeUser]
      simp only [encodeUsers, encodeElems, List.length_cons, List.length_append,
        List.length_nil]
      omega
    obtain ⟨k, hk⟩ : ∃ k, 2 * (encodeUsers (.mk (u :: us))).length + 2 = k + 1 :=
      ⟨2 * (encodeUsers (.mk (u :: us))).length + 1, rfl⟩
    have hk6 : us.length + 6 ≤ k := by omega
    have h1 : isSpace '[' = false := by decide
    have h2 : '[' ≠ cLBrace := by decide
    have h3 : isSpace cLBrace = false := by decide
    have h4 : cLBrace ≠ ']' := by decide
    have hpe := parseElems_encode us u [] k hk6
    unfold parseJSON
    rw [hk]
    simp only [encodeUsers, encodeElems, List.append_assoc, List.singleton_append]
    rw [encodeUser_append] at hpe ⊢
    simp only [parseValue, skipWS_cons _ _ h1, if_neg h2, if_true, skipWS_cons _ _ h3,
      if_neg h4, hpe, mapFst, skipWS_nil, List.map_cons]

theorem setField_id (u : User) (s : List Char) :
    setField u "id".toList (.str s) = .ok { u with Id := String.mk s } := by
  have h : keyMatches "id" "id".toList = true := by decide
  unfold setField
  rw [if_pos h]
  rfl

theorem setField_email (u : User) (s : List Char) :
    setField u "email".toList (.str s) = .ok { u with Email := String.mk s } := by
  have h0 : ¬ keyMatches "id" "email".toList = true := by decide
  have h : keyMatches "email" "email".toList = true := by decide
  unfold setField
  rw [if_neg h0, if_pos h]
  rfl

theorem setField_age (u : User) (n : Int) (hn : inInt64 n) :
    setField u "age".toList (.num (encodeInt n)) = .ok { u with Age := n } := by
  have h0 : ¬ keyMatches "id" "age".toList = true := by decide
  have h1 : ¬ keyMatches "email" "age".toList = true := by decide
  have h : keyMatches "age" "age".toList = true := by decide
  unfold setField
  rw [if_neg h0, if_neg h1, if_pos h]
  simp only [storeInt, parseIntLit_encodeInt n hn]

/-- Storing the parsed form of a marshalled `User` gives the `User` back. -/
theorem decodeUser_userValue (u : User) (hu : inInt64 u.Age) :
    decodeUser (userValue u) = .ok u := by
  simp only [decodeUser, userValue, decodeMembers, setField_id, setField_email,
    setField_age _ _ hu, User.zero]
  rfl

theorem decodeElems_userValue (us : List User) (hus : ∀ u ∈ us, inInt64 u.Age) :
    decodeElems (us.map userValue) = .ok us := by
  induction us with
  | nil => rfl
  | cons u us ih =>
    simp only [List.map_cons, decodeElems,
      decodeUser_userValue u (hus u (List.mem_cons_self _ _)),
      ih (fun v hv => hus v (List.mem_cons_of_mem _ hv))]

/-- Round trip: unmarshalling the marshalled form of a `Users` value whose ages are
64-bit integers gives the value back, the nil slice included. -/
theorem jsonUnmarshalUsers_encodeUsers (d : Users) (hd : ∀ u ∈ d.toList, inInt64 u.Age) :
    jsonUnmarshalUsers (encodeUsers d) = .ok d := by
  cases d with
  | nil => rfl
  | mk us =>
    simp only [jsonUnmarshalUsers, parseJSON_encodeUsers, decodeUsers,
      decodeElems_userValue us hd]


/-! ### Every unmarshalled age is a 64-bit integer -/

theorem parseIntLit_range (lit : Bytes) (n : Int) (h : parseIntLit lit = some n) : inInt64 n := by
  unfold parseIntLit at h
  cases lit with
  | nil => simp at h
  | cons c ds =>
    simp only at h
    split_ifs at h with h1 h2 h3
    · obtain ⟨-, -, hle⟩ := h2
      simp only [Option.some.injEq] at h
      subst h
      constructor
      · have : ((digitsVal ds : Nat) : Int) ≤ 2 ^ 63 := by exact_mod_cast hle
        omega
      · have : (0 : Int) ≤ ((digitsVal ds : Nat) : Int) := Int.natCast_nonneg _
        omega
    · obtain ⟨-, hlt⟩ := h3
      simp only [Option.some.injEq] at h
      subst h
      constructor
      · have : (0 : Int) ≤ ((digitsVal (c :: ds) : Nat) : Int) := Int.natCast_nonneg _
        omega
      · exact_mod_cast hlt

theorem storeInt_range (old n : Int) (v : JValue) (hold : inInt64 old)
    (h : storeInt old v = .ok n) : inInt64 n := by
  unfold storeInt at h
  split at h
  · split at h
    · rename_i hp
      simp only [Except.ok.injEq] at h
      subst h
      exact parseIntLit_range _ _ hp
    · cases h
  · simp only [Except.ok.injEq] at h
    subst h
    exact hold
  · cases h

theorem setField_range (u u1 : User) (k : List Char) (v : JValue) (hu : inInt64 u.Age)
    (h : setField u k v = .ok u1) : inInt64 u1.Age := by
  unfold setField at h
  split_ifs at h
  · split at h
    · simp only [Except.ok.injEq] at h
      subst h
      exact hu
    · cases h
  · split at h
    · simp only [Except.ok.injEq] at h
      subst h
      exact hu
    · cases h
  · split at h
    · rename_i hs
      simp only [Except.ok.injEq] at h
      subst h
      exact storeInt_range _ _ _ hu hs
    · cases h
  · simp only [Except.ok.injEq] at h
    subst h
    exact hu

theorem decodeMembers_range (kvs : List (List Char × JValue)) (u u1 : User)
    (hu : inInt64 u.Age) (h : decodeMembers u kvs = .ok u1) : inInt64 u1.Age := by
  induction kvs generalizing u with
  | nil =>
    simp only [decodeMembers, Except.ok.injEq] at h
    subst h
    exact hu
  | cons kv kvs ih =>
    obtain ⟨k, v⟩ := kv
    simp only [decodeMembers] at h
    split at h
    · rename_i u2 hs
      exact ih u2 (setField_range u u2 k v hu hs) h
    · cases h

theorem inInt64_zero : inInt64 0 := by
  constructor <;> norm_num

theorem decodeUser_range (v : JValue) (u : User) (h : decodeUser v = .ok u) :
    inInt64 u.Age := by
  unfold decodeUser at h
  split at h
  · simp only [Except.ok.injEq] at h
    subst h
    exact inInt64_zero
  · exact decodeMembers_range _ _ _ inInt64_zero h
  · cases h

theorem decodeElems_range (vs : List JValue) (us : List User) (h : decodeElems vs = .ok us) :
    ∀ u ∈ us, inInt64 u.Age := by
  induction vs generalizing us with
  | nil =>
    simp only [decodeElems, Except.ok.injEq] at h
    subst h
    simp
  | cons v vs ih =>
    simp only [decodeElems] at h
    split at h
    · cases h
    · rename_i u hu
      split at h
      · cases h
      · rename_i us1 hus
        simp only [Except.ok.injEq] at h
        subst h
        intro w hw
        rcases List.mem_cons.mp hw with hw | hw
        · rw [hw]; exact decodeUser_range v u hu
        · exact ih us1 hus w hw

/-- Every age that `json.Unmarshal` stores into a `Users` value is a 64-bit integer. -/
theorem jsonUnmarshalUsers_range (content : Bytes) (d : Users)
    (h : jsonUnmarshalUsers content = .ok d) : ∀ u ∈ d.toList, inInt64 u.Age := by
  unfold jsonUnmarshalUsers at h
  split at h
  · cases h
  · rename_i v hv
    split at h
    · cases h
    · rename_i us hus
      simp only [Except.ok.injEq] at h
      subst h
      unfold decodeUsers at hus
      split at hus
      · simp only [Except.ok.injEq] at hus
        subst hus
        simp [Users.toList]
      · split at hus
        · rename_i us1 hus1
          simp only [Except.ok.injEq] at hus
          subst hus
          exact decodeElems_range _ _ hus1
        · cases hus
      · cases hus

/-- The age that `json.Unmarshal` stores into a `User` is a 64-bit integer. -/
theorem jsonUnmarshalUser_range (item : Bytes) (r : User)
    (h : jsonUnmarshalUser item = .ok r) : inInt64 r.Age := by
  unfold jsonUnmarshalUser at h
  split at h
  · cases h
  · split at h
    · cases h
    · rename_i u hu
      simp only [Except.ok.injEq] at h
      subst h
      exact decodeUser_range _ _ hu

/-! ## The step budget of the parser is never exhausted

`parseJSON` runs `parseValue` with a budget of `2 * length + 2` steps. The results below
show that the budget is always enough: more steps never change the result. -/

theorem skipWS_length_le (s : Bytes) : (skipWS s).length ≤ s.length := by
  induction s with
  | nil => simp [skipWS]
  | cons c cs ih =>
    simp only [skipWS]
    split_ifs
    · simp only [List.length_cons]; omega
    · exact le_refl _

theorem skipWS_tail_length (s r : Bytes) (c : Char) (h : skipWS s = c :: r) :
    r.length + 1 ≤ s.length := by
  have := skipWS_length_le s
  rw [h] at this
  simpa using this

theorem decodeEscapedUnit_length (rr : Nat) (rest : Bytes) :
    (decodeEscapedUnit rr rest).2.length ≤ rest.length := by
  unfold decodeEscapedUnit
  split_ifs
  · split
    · split_ifs
      · simp
      · exact le_refl _
    · exact le_refl _
  · exact le_refl _

theorem consChar_ok_inv (c : Char) (x : Except JsonError (List Char × Bytes)) (k : List Char)
    (r : Bytes) (h : consChar c x = .ok (k, r)) : ∃ k1, x = .ok (k1, r) := by
  unfold consChar at h
  split at h
  · rename_i s rest
    simp only [Except.ok.injEq, Prod.mk.injEq] at h
    exact ⟨s, by rw [h.2]⟩
  · cases h

theorem parseStringBody_length (fuel : Nat) (s : Bytes) (k : List Char) (r : Bytes)
    (h : parseStringBody fuel s = .ok (k, r)) : r.length ≤ s.length := by
  induction fuel generalizing s k with
  | zero => simp [parseStringBody] at h
  | succ f ih =>
    cases s with
    | nil => simp [parseStringBody] at h
    | cons c rest =>
      simp only [parseStringBody] at h
      by_cases h1 : c = cQuote
      · rw [if_pos h1] at h
        simp only [Except.ok.injEq, Prod.mk.injEq] at h
        obtain ⟨-, rfl⟩ := h
        simp
      · rw [if_neg h1] at h
        by_cases h2 : c = cBackslash
        · rw [if_pos h2] at h
          cases rest with
          | nil => simp at h
          | cons e rest1 =>
            simp only at h
            by_cases h4 : e = 'u'
            · rw [if_pos h4] at h
              split at h
              · cases h
              · rename_i rr hrr
                obtain ⟨k1, hk1⟩ := consChar_ok_inv _ _ _ _ h
                have h5 := ih _ _ hk1
                have h6 := decodeEscapedUnit_length rr (List.drop 4 rest1)
                have h7 : (List.drop 4 rest1).length ≤ rest1.length := by simp
                simp only [List.length_cons]
                omega
            · rw [if_neg h4] at h
              split at h
              · cases h
              · obtain ⟨k1, hk1⟩ := consChar_ok_inv _ _ _ _ h
                have h5 := ih _ _ hk1
                simp only [List.length_cons]
                omega
        · rw [if_neg h2] at h
          by_cases h3 : c.toNat < 32
          · rw [if_pos h3] at h
            cases h
          · rw [if_neg h3] at h
            obtain ⟨k1, hk1⟩ := consChar_ok_inv _ _ _ _ h
            have h5 := ih _ _ hk1
            simp only [List.length_cons]
            omega

theorem span_snd_length (l : Bytes) : (l.span isDigit).2.length ≤ l.length := by
  rw [List.span_eq_take_drop]
  exact (List.dropWhile_suffix isDigit).length_le

theorem some_pair_snd {α β : Type} {a a1 : α} {b b1 : β} (h : some (a, b) = some (a1, b1)) :
    b = b1 := by
  cases h; rfl

theorem scanExp_length (lit s lit1 r : Bytes) (h : scanExp lit s = some (lit1, r)) :
    r.length ≤ s.length := by
  cases s with
  | nil =>
    simp only [scanExp] at h
    rw [← some_pair_snd h]
  | cons e r0 =>
    simp only [scanExp] at h
    by_cases h1 : e = 'e' ∨ e = 'E'
    · rw [if_pos h1] at h
      cases r0 with
      | nil => simp at h
      | cons g r1 =>
        have h2 := span_snd_length r1
        have h3 := span_snd_length (g :: r1)
        simp only at h
        by_cases h4 : g = '+' ∨ g = '-'
        · rw [if_pos h4] at h
          by_cases h5 : (List.span isDigit r1).1 = []
          · rw [if_pos h5] at h; cases h
          · rw [if_neg h5] at h
            rw [← some_pair_snd h]
            simp only [List.length_cons]
            omega
        · rw [if_neg h4] at h
          by_cases h5 : (List.span isDigit (g :: r1)).1 = []
          · rw [if_pos h5] at h; cases h
          · rw [if_neg h5] at h
            rw [← some_pair_snd h]
            simp only [List.length_cons] at h3 ⊢
            omega
    · rw [if_neg h1] at h
      rw [← some_pair_snd h]

theorem scanFrac_length (lit s lit1 r : Bytes) (h : scanFrac lit s = some (lit1, r)) :
    r.length ≤ s.length := by
  cases s with
  | nil =>
    simp only [scanFrac] at h
    rw [← some_pair_snd h]
  | cons d r0 =>
    simp only [scanFrac] at h
    by_cases h1 : d = '.'
    · rw [if_pos h1] at h
      by_cases h5 : (List.span isDigit r0).1 = []
      · rw [if_pos h5] at h; cases h
      · rw [if_neg h5] at h
        have h2 := scanExp_length _ _ _ _ h
        have h3 := span_snd_length r0
        simp only [List.length_cons]
        omega
    · rw [if_neg h1] at h
      exact scanExp_length _ _ _ _ h

theorem scanInt_length (lit s lit1 r : Bytes) (h : scanInt lit s = some (lit1, r)) :
    r.length ≤ s.length := by
  cases s with
  | nil => simp [scanInt] at h
  | cons d r0 =>
    simp only [scanInt] at h
    by_cases h1 : d = '0'
    · rw [if_pos h1] at h
      have h2 := scanFrac_length _ _ _ _ h
      simp only [List.length_cons]
      omega
    · rw [if_neg h1] at h
      by_cases h5 : isDigit d = true
      · rw [if_pos h5] at h
        have h2 := scanFrac_length _ _ _ _ h
        have h3 := span_snd_length r0
        simp only [List.length_cons]
        omega
      · rw [if_neg h5] at h; cases h

theorem scanNumber_length (s lit1 r : Bytes) (h : scanNumber s = some (lit1, r)) :
    r.length ≤ s.length := by
  cases s with
  | nil => simp [scanNumber] at h
  | cons c r0 =>
    simp only [scanNumber] at h
    by_cases h1 : c = '-'
    · rw [if_pos h1] at h
      have h2 := scanInt_length _ _ _ _ h
      simp only [List.length_cons]
      omega
    · rw [if_neg h1] at h
      exact scanInt_length _ _ _ _ h

theorem stripWord_length (w s r : Bytes) (h : stripWord w s = some r) :
    r.length ≤ s.length := by
  induction w generalizing s with
  | nil =>
    simp only [stripWord, Option.some.injEq] at h
    rw [h]
  | cons a w ih =>
    cases s with
    | nil => simp [stripWord] at h
    | cons c cs =>
      simp only [stripWord] at h
      split_ifs at h
      have := ih cs h
      simp only [List.length_cons]
      omega

theorem mapFst_ok_inv {α β γ : Type} (f : α → β) (x : Except JsonError (α × γ)) (b : β)
    (r : γ) (h : mapFst f x = .ok (b, r)) : ∃ a, x = .ok (a, r) := by
  unfold mapFst at h
  split at h
  · rename_i a c
    simp only [Except.ok.injEq, Prod.mk.injEq] at h
    exact ⟨a, by rw [h.2]⟩
  · cases h

theorem parseValue_succ (fuel : Nat) (s : Bytes) :
    parseValue (fuel + 1) s =
      match skipWS s with
      | [] => .error .syntaxError
      | c :: rest =>
        if c = cLBrace then
          match skipWS rest with
          | [] => .error .syntaxError
          | d :: rest1 =>
            if d = cRBrace then .ok (.obj [], rest1)
            else mapFst JValue.obj (parseMembers fuel rest)
        else if c = '[' then
          match skipWS rest with
          | [] => .error .syntaxError
          | d :: rest1 =>
            if d = ']' then .ok (.arr [], rest1)
            else mapFst JValue.arr (parseElems fuel rest)
        else if c = cQuote then
          mapFst JValue.str (parseStringBody (rest.length + 1) rest)
        else if c = '-' ∨ isDigit c then
          match scanNumber (c :: rest) with
          | some (lit, r) => .ok (.num lit, r)
          | none => .error .syntaxError
        else if c = 't' then
          match stripWord ['r', 'u', 'e'] rest with
          | some r => .ok (.bool true, r)
          | none => .error .syntaxError
        else if c = 'f' then
          match stripWord ['a', 'l', 's', 'e'] rest with
          | some r => .ok (.bool false, r)
          | none => .error .syntaxError
        else if c = 'n' then
          match stripWord ['u', 'l', 'l'] rest with
          | some r => .ok (.null, r)
          | none => .error .syntaxError
        else .error .syntaxError := by
  rw [parseValue]

theorem parseMembers_succ (fuel : Nat) (s : Bytes) :
    parseMembers (fuel + 1) s =
      match skipWS s with
      | [] => .error .syntaxError
      | q :: r0 =>
        if q = cQuote then
          match parseStringBody (r0.length + 1) r0 with
          | .error e => .error e
          | .ok (k, r1) =>
            match skipWS r1 with
            | [] => .error .syntaxError
            | c :: r2 =>
              if c = ':' then
                match parseValue fuel r2 with
                | .error e => .error e
                | .ok (v, r3) =>
                  match skipWS r3 with
                  | [] => .error .syntaxError
                  | d :: r4 =>
                    if d = ',' then mapFst (List.cons (k, v)) (parseMembers fuel r4)
                    else if d = cRBrace then .ok ([(k, v)], r4)
                    else .error .syntaxError
              else .error .syntaxError
        else .error .syntaxError := by
  rw [parseMembers]

/-- Each of the three parsing functions returns a remainder no longer than its input. -/
theorem parse_length (fuel : Nat) :
    (∀ s v r, parseValue fuel s = .ok (v, r) → r.length ≤ s.length) ∧
    (∀ s vs r, parseElems fuel s = .ok (vs, r) → r.length ≤ s.length) ∧
    (∀ s kvs r, parseMembers fuel s = .ok (kvs, r) → r.length ≤ s.length) := by
  induction fuel with
  | zero =>
    refine ⟨?_, ?_, ?_⟩ <;> intro s v r h
    · simp [parseValue] at h
    · simp [parseElems] at h
    · simp [parseMembers] at h
  | succ f ih =>
    obtain ⟨ihV, ihE, ihM⟩ := ih
    refine ⟨?_, ?_, ?_⟩
    · intro s v r h
      rw [parseValue_succ] at h
      rcases hs : skipWS s with _ | ⟨c, rest⟩
      · rw [hs] at h; cases h
      · rw [hs] at h
        have hlen := skipWS_tail_length s rest c hs
        simp only at h
        by_cases h1 : c = cLBrace
        · rw [if_pos h1] at h
          rcases hr : skipWS rest with _ | ⟨d, rest1⟩
          · rw [hr] at h; cases h
          · rw [hr] at h
            have hlen1 := skipWS_tail_length rest rest1 d hr
            simp only at h
            by_cases h2 : d = cRBrace
            · rw [if_pos h2] at h
              simp only [Except.ok.injEq, Prod.mk.injEq] at h
              obtain ⟨-, rfl⟩ := h
              omega
            · rw [if_neg h2] at h
              obtain ⟨a, ha⟩ := mapFst_ok_inv _ _ _ _ h
              have := ihM _ _ _ ha
              omega
        · rw [if_neg h1] at h
          by_cases h2 : c = '['
          · rw [if_pos h2] at h
            rcases hr : skipWS rest with _ | ⟨d, rest1⟩
            · rw [hr] at h; cases h
            · rw [hr] at h
              have hlen1 := skipWS_tail_length rest rest1 d hr
              simp only at h
              by_cases h3 : d = ']'
              · rw [if_pos h3] at h
                simp only [Except.ok.injEq, Prod.mk.injEq] at h
                obtain ⟨-, rfl⟩ := h
                omega
              · rw [if_neg h3] at h
                obtain ⟨a, ha⟩ := mapFst_ok_inv _ _ _ _ h
                have := ihE _ _ _ ha
                omega
          · rw [if_neg h2] at h
            by_cases h3 : c = cQuote
            · rw [if_pos h3] at h
              obtain ⟨a, ha⟩ := mapFst_ok_inv _ _ _ _ h
              have := parseStringBody_length _ _ _ _ ha
              omega
            · rw [if_neg h3] at h
              by_cases h4 : c = '-' ∨ isDigit c = true
              · rw [if_pos h4] at h
                split at h
                · rename_i lit r1 hsc
                  have := scanNumber_length _ _ _ hsc
                  simp only [Except.ok.injEq, Prod.mk.injEq] at h
                  obtain ⟨-, rfl⟩ := h
                  simp only [List.length_cons] at this
                  omega
                · cases h
              · rw [if_neg h4] at h
                by_cases h5 : c = 't'
                · rw [if_pos h5] at h
                  split at h
                  · rename_i r1 hsw
                    have := stripWord_length _ _ _ hsw
                    simp only [Except.ok.injEq, Prod.mk.injEq] at h
                    obtain ⟨-, rfl⟩ := h
                    omega
                  · cases h
                · rw [if_neg h5] at h
                  by_cases h6 : c = 'f'
                  · rw [if_pos h6] at h
                    split at h
                    · rename_i r1 hsw
                      have := stripWord_length _ _ _ hsw
                      simp only [Except.ok.injEq, Prod.mk.injEq] at h
                      obtain ⟨-, rfl⟩ := h
                      omega
                    · cases h
                  · rw [if_neg h6] at h
                    by_cases h7 : c = 'n'
                    · rw [if_pos h7] at h
                      split at h
                      · rename_i r1 hsw
                        have := stripWord_length _ _ _ hsw
                        simp only [Except.ok.injEq, Prod.mk.injEq] at h
                        obtain ⟨-, rfl⟩ := h
                        omega
                      · cases h
                    · rw [if_neg h7] at h
                      cases h
    · intro s vs r h
      rw [parseElems_succ] at h
      rcases hv : parseValue f s with e | ⟨v, r0⟩
      · rw [hv] at h; cases h
      · rw [hv] at h
        have hlen := ihV _ _ _ hv
        simp only at h
        rcases hr : skipWS r0 with _ | ⟨c, r1⟩
        · rw [hr] at h; cases h
        · rw [hr] at h
          have hlen1 := skipWS_tail_length r0 r1 c hr
          simp only at h
          by_cases h1 : c = ','
          · rw [if_pos h1] at h
            obtain ⟨a, ha⟩ := mapFst_ok_inv _ _ _ _ h
            have := ihE _ _ _ ha
            omega
          · rw [if_neg h1] at h
            by_cases h2 : c = ']'
            · rw [if_pos h2] at h
              simp only [Except.ok.injEq, Prod.mk.injEq] at h
              obtain ⟨-, rfl⟩ := h
              omega
            · rw [if_neg h2] at h
              cases h
    · intro s kvs r h
      rw [parseMembers_succ] at h
      rcases hs : skipWS s with _ | ⟨q, r0⟩
      · rw [hs] at h; cases h
      · rw [hs] at h
        have hlen := skipWS_tail_length s r0 q hs
        simp only at h
        by_cases h1 : q = cQuote
        · rw [if_pos h1] at h
          rcases hk : parseStringBody (r0.length + 1) r0 with e | ⟨k, r1⟩
          · rw [hk] at h; cases h
          · rw [hk] at h
            have hlen1 := parseStringBody_length _ _ _ _ hk
            simp only at h
            rcases hr : skipWS r1 with _ | ⟨c, r2⟩
            · rw [hr] at h; cases h
            · rw [hr] at h
              have hlen2 := skipWS_tail_length r1 r2 c hr
              simp only at h
              by_cases h2 : c = ':'
              · rw [if_pos h2] at h
                rcases hv : parseValue f r2 with e | ⟨v, r3⟩
                · rw [hv] at h; cases h
                · rw [hv] at h
                  have hlen3 := ihV _ _ _ hv
                  simp only at h
                  rcases hr3 : skipWS r3 with _ | ⟨d, r4⟩
                  · rw [hr3] at h; cases h
                  · rw [hr3] at h
                    have hlen4 := skipWS_tail_length r3 r4 d hr3
                    simp only at h
                    by_cases h3 : d = ','
                    · rw [if_pos h3] at h
                      obtain ⟨a, ha⟩ := mapFst_ok_inv _ _ _ _ h
                      have := ihM _ _ _ ha
                      omega
                    · rw [if_neg h3] at h
                      by_cases h4 : d = cRBrace
                      · rw [if_pos h4] at h
                        simp only [Except.ok.injEq, Prod.mk.injEq] at h
                        obtain ⟨-, rfl⟩ := h
                        omega
                      · rw [if_neg h4] at h
                        cases h
              · rw [if_neg h2] at h
                cases h
        · rw [if_neg h1] at h
          cases h

/-- Once the budget exceeds twice the length of the input, one more step changes nothing. -/
theorem parse_fuel_stable (fuel : Nat) :
    (∀ s : Bytes, 2 * s.length + 1 ≤ fuel → parseValue (fuel + 1) s = parseValue fuel s) ∧
    (∀ s : Bytes, 2 * s.length + 2 ≤ fuel → parseElems (fuel + 1) s = parseElems fuel s) ∧
    (∀ s : Bytes, 2 * s.length + 2 ≤ fuel →
      parseMembers (fuel + 1) s = parseMembers fuel s) := by
  induction fuel with
  | zero =>
    refine ⟨?_, ?_, ?_⟩ <;> intro s h <;> omega
  | succ f ih =>
    obtain ⟨ihV, ihE, ihM⟩ := ih
    refine ⟨?_, ?_, ?_⟩
    · intro s hb
      rw [parseValue_succ, parseValue_succ]
      rcases hs : skipWS s with _ | ⟨c, rest⟩
      · rfl
      · have hlen := skipWS_tail_length s rest c hs
        simp only
        rw [ihM rest (by omega), ihE rest (by omega)]
    · intro s hb
      rw [parseElems_succ, parseElems_succ, ihV s (by omega)]
      rcases hv : parseValue f s with e | ⟨v, r0⟩
      · rfl
      · have hlen := (parse_length f).1 _ _ _ hv
        simp only
        rcases hr : skipWS r0 with _ | ⟨c, r1⟩
        · rfl
        · have hlen1 := skipWS_tail_length r0 r1 c hr
          simp only
          rw [ihE r1 (by omega)]
    · intro s hb
      rw [parseMembers_succ, parseMembers_succ]
      rcases hs : skipWS s with _ | ⟨q, r0⟩
      · rfl
      · have hlen := skipWS_tail_length s r0 q hs
        simp only
        rcases hk : parseStringBody (r0.length + 1) r0 with e | ⟨k, r1⟩
        · rfl
        · have hlen1 := parseStringBody_length _ _ _ _ hk
          simp only
          rcases hr : skipWS r1 with _ | ⟨c, r2⟩
          · rfl
          · have hlen2 := skipWS_tail_length r1 r2 c hr
            simp only
            rw [ihV r2 (by omega)]
            rcases hv : parseValue f r2 with e | ⟨v, r3⟩
            · rfl
            · have hlen3 := (parse_length f).1 _ _ _ hv
              simp only
              rcases hr3 : skipWS r3 with _ | ⟨d, r4⟩
              · rfl
              · have hlen4 := skipWS_tail_length r3 r4 d hr3
                simp only
                rw [ihM r4 (by omega)]

/-- The budget `parseJSON` gives `parseValue` is enough: with any larger budget the
result is the same, so no input is rejected for want of steps. -/
theorem parseValue_budget_enough (s : Bytes) (k : Nat) :
    parseValue (2 * s.length + 2 + k) s = parseValue (2 * s.length + 2) s := by
  induction k with
  | zero => rfl
  | succ k ih =>
    rw [← ih, ← Nat.add_assoc]
    exact (parse_fuel_stable (2 * s.length + 2 + k)).1 s (by omega)

theorem parseStringBody_cons (fuel : Nat) (c : Char) (rest : Bytes) :
    parseStringBody (fuel + 1) (c :: rest) =
      if c = cQuote then .ok ([], rest)
      else if c = cBackslash then
        match rest with
        | [] => .error .syntaxError
        | e :: rest1 =>
          if e = 'u' then
            match getu4 (c :: rest) with
            | none => .error .syntaxError
            | some rr =>
              consChar (decodeEscapedUnit rr (rest1.drop 4)).1
                (parseStringBody fuel (decodeEscapedUnit rr (rest1.drop 4)).2)
          else
            match simpleEscape e with
            | none => .error .syntaxError
            | some ch => consChar ch (parseStringBody fuel rest1)
      else if c.toNat < 32 then .error .syntaxError
      else consChar c (parseStringBody fuel rest) := by
  rfl

/-- The budget given to `parseStringBody`, the length of its input plus one, is enough
as well. -/
theorem parseStringBody_fuel_stable (fuel : Nat) (s : Bytes) (h : s.length + 1 ≤ fuel) :
    parseStringBody (fuel + 1) s = parseStringBody fuel s := by
  induction fuel generalizing s with
  | zero => omega
  | succ f ih =>
    cases s with
    | nil => simp [parseStringBody]
    | cons c rest =>
      simp only [List.length_cons] at h
      rw [parseStringBody_cons (f + 1), parseStringBody_cons f]
      by_cases h1 : c = cQuote
      · rw [if_pos h1, if_pos h1]
      · rw [if_neg h1, if_neg h1]
        by_cases h2 : c = cBackslash
        · rw [if_pos h2, if_pos h2]
          cases rest with
          | nil => rfl
          | cons e rest1 =>
            simp only [List.length_cons] at h
            simp only
            by_cases h4 : e = 'u'
            · rw [if_pos h4, if_pos h4]
              rcases hg : getu4 (c :: e :: rest1) with _ | rr
              · rfl
              · have h6 := decodeEscapedUnit_length rr (List.drop 4 rest1)
                have h7 : (List.drop 4 rest1).length ≤ rest1.length := by simp
                simp only
                rw [ih _ (by omega)]
            · rw [if_neg h4, if_neg h4]
              rcases hg : simpleEscape e with _ | ch
              · rfl
              · simp only
                rw [ih _ (by omega)]
        · rw [if_neg h2, if_neg h2]
          by_cases h3 : c.toNat < 32
          · rw [if_pos h3, if_pos h3]
          · rw [if_neg h3, if_neg h3]
            rw [ih _ (by omega)]

/-! ## The operations on a freshly opened file -/

theorem jsonUnmarshalUsers_empty : jsonUnmarshalUsers [] = .error (.json .syntaxError) := rfl

theorem list_opened (content : Bytes) (w : Writer) (hw : w.fault = none) :
    list (File.opened content) w =
      (none, ⟨content, content.length, none, none, none⟩, ⟨w.out ++ content, none⟩) := by
  obtain ⟨out, fault⟩ := w
  simp only at hw
  subst hw
  simp [list, File.readAll, File.opened, Writer.write]

theorem findById_opened (id : String) (content : Bytes) (d : Users) (w : Writer)
    (hid : id ≠ "") (hd : jsonUnmarshalUsers content = .ok d) (hw : w.fault = none) :
    findById id (File.opened content) w =
      (none, ⟨content, content.length, none, none, none⟩,
        ⟨w.out ++ encodeUser (findLoop id User.zero d.toList), none⟩) := by
  obtain ⟨out, fault⟩ := w
  simp only at hw
  subst hw
  simp [findById, hid, File.readAll, File.opened, hd, jsonMarshalUser, Writer.write]

theorem filter_length_eq_iff (id : String) (xs : List User) :
    xs.length = (xs.filter (fun u => decide (u.Id ≠ id))).length ↔ ∀ u ∈ xs, u.Id ≠ id := by
  constructor
  · intro h u hu
    have hf : xs.filter (fun u => decide (u.Id ≠ id)) = xs :=
      (List.filter_sublist xs).eq_of_length h.symm
    have := List.filter_eq_self.mp hf u hu
    simpa using this
  · intro h
    rw [List.filter_eq_self.mpr (fun u hu => by simpa using h u hu)]

/-- The not-found path of `remove`: only the read has happened. -/
theorem remove_not_found (id : String) (content : Bytes) (d : Users) (tf wf : Option GoError)
    (hid : id ≠ "") (hd : jsonUnmarshalUsers content = .ok d)
    (h : ∀ u ∈ d.toList, u.Id ≠ id) :
    remove id ⟨content, 0, none, tf, wf⟩ =
      (some (.errorf ("Item with id " ++ id ++ " not found")),
        ⟨content, content.length, none, tf, wf⟩) := by
  have hlen : d.len = (removeLoop id Users.nil d.toList).len := by
    unfold Users.len
    rw [removeLoop_toList]
    exact (filter_length_eq_iff id d.toList).mpr h
  simp [remove, hid, File.readAll, hd, hlen]

/-- The path of `remove` on which a record is dropped, up to the write. -/
theorem remove_found (id : String) (content : Bytes) (d : Users) (tf wf : Option GoError)
    (hid : id ≠ "") (hd : jsonUnmarshalUsers content = .ok d)
    (h : ∃ u ∈ d.toList, u.Id = id) :
    remove id ⟨content, 0, none, tf, wf⟩ =
      match File.write (File.truncate0 ⟨content, content.length, none, tf, wf⟩).2
          (encodeUsers (removeLoop id Users.nil d.toList)) with
      | (some _, file) => (none, file)
      | (none, file) => (none, file) := by
  have hlen : ¬ d.len = (removeLoop id Users.nil d.toList).len := by
    unfold Users.len
    rw [removeLoop_toList]
    obtain ⟨u, hu, hu1⟩ := h
    exact fun hall => (filter_length_eq_iff id d.toList).mp hall u hu hu1
  simp [remove, hid, File.readAll, hd, hlen, jsonMarshalUsers]

theorem remove_opened_found (id : String) (content : Bytes) (d : Users)
    (hid : id ≠ "") (hd : jsonUnmarshalUsers content = .ok d)
    (h : ∃ u ∈ d.toList, u.Id = id) :
    remove id (File.opened content) =
      (none, ⟨encodeUsers (removeLoop id Users.nil d.toList),
        (encodeUsers (removeLoop id Users.nil d.toList)).length, none, none, none⟩) := by
  rw [File.opened, remove_found id content d none none hid hd h]
  simp [File.truncate0, File.write]

theorem last_match_split (id : String) (xs : List User) (h : ∃ v ∈ xs, v.Id = id) :
    ∃ pre u post, xs = pre ++ u :: post ∧ u.Id = id ∧ ∀ v ∈ post, v.Id ≠ id := by
  induction xs with
  | nil => simp at h
  | cons x xs ih =>
    by_cases hx : ∃ v ∈ xs, v.Id = id
    · obtain ⟨pre, u, post, hsplit, hu, hpost⟩ := ih hx
      exact ⟨x :: pre, u, post, by rw [hsplit]; rfl, hu, hpost⟩
    · obtain ⟨v, hv, hv1⟩ := h
      rcases List.mem_cons.mp hv with hv | hv
      · subst hv
        exact ⟨[], v, xs, rfl, hv1, fun w hw hw1 => hx ⟨w, hw, hw1⟩⟩
      · exact absurd ⟨v, hv, hv1⟩ hx

/-! ## The write-back of `add` -/

/-- When the content and the payload unmarshal and the final write fails with `e`, `add`
returns `e`. -/
theorem add_returns_write_error (item : String) (content : Bytes) (d : Users) (r : User)
    (tf : Option GoError) (e : GoError) (hitem : item ≠ "")
    (hd : jsonUnmarshalUsers content = .ok d) (hr : jsonUnmarshalUser item.toList = .ok r) :
    (add item ⟨content, 0, none, tf, some e⟩).1 = some e := by
  have hpos : content.length > 0 := by
    rcases content with _ | ⟨c, cs⟩
    · rw [jsonUnmarshalUsers_empty] at hd
      cases hd
    · simp
  cases tf <;>
    simp only [add, if_neg hitem, File.readAll, List.drop_zero, if_pos hpos, hd, hr,
      jsonMarshalUsers, File.write, File.truncate0]

/-- The case `add_returns_write_error` at a concrete store and payload. -/
theorem add_returns_write_error_witness :
    jsonUnmarshalUsers sampleContent = .ok (.mk [sampleUser]) ∧
    jsonUnmarshalUser sampleItem.toList = .ok sampleItemUser ∧
    (add sampleItem ⟨sampleContent, 0, none, none, some (.os "no space left on device")⟩).1 =
      some (.os "no space left on device") :=
  ⟨by decide, by decide,
    add_returns_write_error sampleItem sampleContent (.mk [sampleUser]) sampleItemUser none
      (.os "no space left on device") (by decide) (by decide) (by decide)⟩

/-- The result of `file.Truncate(0)` is discarded: when the truncate fails and the write
works, `add` returns `nil` and the new array stands after the old content. -/
theorem add_ignores_truncate_error :
    (add sampleItem ⟨sampleContent, 0, none, some (.os "permission denied"), none⟩).1 = none ∧
    (add sampleItem ⟨sampleContent, 0, none, some (.os "permission denied"), none⟩).2.content =
      sampleContent ++ sampleDup := by
  decide

/-! ## The claims -/

/-- C1: on a store whose content is empty or unmarshals to the records `S`, `add` of a
non-empty payload that unmarshals to `r` succeeds and leaves exactly the marshalled
`S ++ [r]` as content (nothing of the prior content remains); a following `list`, run on
the reopened file, outputs those bytes, which unmarshal to `S ++ [r]`: one record more,
the first `length S` records are `S` in order, the last one is `r`. Nothing is assumed
about the ids, so `S` may already hold a record with the id of `r`. -/
theorem add_then_list_yields_appended (content : Bytes) (S : List User) (item : String)
    (r : User)
    (hS : (content = [] ∧ S = []) ∨ ∃ d, jsonUnmarshalUsers content = .ok d ∧ d.toList = S)
    (hitem : item ≠ "") (hr : jsonUnmarshalUser item.toList = .ok r) :
    (add item (File.opened content)).1 = none ∧
    (add item (File.opened content)).2.content = encodeUsers (.mk (S ++ [r])) ∧
    (list (File.opened (add item (File.opened content)).2.content) Writer.empty).1 = none ∧
    (list (File.opened (add item (File.opened content)).2.content) Writer.empty).2.2.out =
      encodeUsers (.mk (S ++ [r])) ∧
    ∃ d1, jsonUnmarshalUsers
        (list (File.opened (add item (File.opened content)).2.content) Writer.empty).2.2.out =
          .ok d1 ∧
      d1.toList = S ++ [r] ∧ d1.len = S.length + 1 ∧ d1.toList.take S.length = S ∧
      d1.toList.getLast? = some r := by
  have hrr := jsonUnmarshalUser_range _ _ hr
  obtain ⟨d, hd, hdS, hrange⟩ : ∃ d,
      (if content.length > 0 then jsonUnmarshalUsers content else .ok Users.nil) = .ok d ∧
        d.toList = S ∧ ∀ u ∈ S, inInt64 u.Age := by
    rcases hS with ⟨hc, hs⟩ | ⟨d, hd, hdS⟩
    · subst hc hs
      exact ⟨Users.nil, rfl, rfl, by simp⟩
    · refine ⟨d, ?_, hdS, hdS ▸ jsonUnmarshalUsers_range _ _ hd⟩
      have hpos : content.length > 0 := by
        rcases content with _ | ⟨c, cs⟩
        · rw [jsonUnmarshalUsers_empty] at hd
          cases hd
        · simp
      rw [if_pos hpos, hd]
  have hadd := add_opened_ok item content d r hitem hd hr
  have happ : d.append r = Users.mk (S ++ [r]) := by rw [Users.append, hdS]
  rw [happ] at hadd
  have hrt : jsonUnmarshalUsers (encodeUsers (.mk (S ++ [r]))) = .ok (.mk (S ++ [r])) := by
    apply jsonUnmarshalUsers_encodeUsers
    intro u hu
    rcases List.mem_append.mp hu with hu | hu
    · exact hrange u hu
    · rw [List.mem_singleton.mp hu]; exact hrr
  have hl := list_opened (encodeUsers (.mk (S ++ [r]))) Writer.empty rfl
  rw [hadd]
  dsimp only
  rw [hl]
  refine ⟨rfl, rfl, rfl, rfl, Users.mk (S ++ [r]), hrt, rfl, ?_, ?_, ?_⟩
  · simp [Users.len, Users.toList]
  · simp [Users.toList]
  · simp [Users.toList]

/-- C2: on a store whose content unmarshals to `d`, `remove` of a non-empty id that some
record carries succeeds, and the content afterwards unmarshals to the records of `d`
whose id differs, in their original order (every record with the id is dropped). -/
theorem remove_keeps_exactly_others (content : Bytes) (d : Users) (X : String)
    (hd : jsonUnmarshalUsers content = .ok d) (hX : X ≠ "")
    (hex : ∃ u ∈ d.toList, u.Id = X) :
    (remove X (File.opened content)).1 = none ∧
    ∃ d1, jsonUnmarshalUsers (remove X (File.opened content)).2.content = .ok d1 ∧
      d1.toList = d.toList.filter (fun u => decide (u.Id ≠ X)) := by
  rw [remove_opened_found X content d hX hd hex]
  refine ⟨rfl, removeLoop X Users.nil d.toList, ?_, ?_⟩
  · apply jsonUnmarshalUsers_encodeUsers
    intro u hu
    rw [removeLoop_toList] at hu
    have hu1 : u ∈ d.toList := List.mem_of_mem_filter hu
    exact jsonUnmarshalUsers_range _ _ hd u hu1
  · rw [removeLoop_toList]
    rfl

/-- C3: on a store whose content unmarshals to `d` (whatever truncate and write would
answer), `remove` of a non-empty id `X` returns the error "Item with id X not found"
exactly when no record of `d` has id `X`, and then the file is as the read left it:
same content, nothing truncated or written. -/
theorem remove_not_found_iff_absent (content : Bytes) (d : Users) (X : String)
    (tf wf : Option GoError) (hd : jsonUnmarshalUsers content = .ok d) (hX : X ≠ "") :
    ((remove X ⟨content, 0, none, tf, wf⟩).1 =
        some (.errorf ("Item with id " ++ X ++ " not found")) ↔
      ∀ u ∈ d.toList, u.Id ≠ X) ∧
    ((∀ u ∈ d.toList, u.Id ≠ X) →
      (remove X ⟨content, 0, none, tf, wf⟩).2 = (File.readAll ⟨content, 0, none, tf, wf⟩).2 ∧
      (remove X ⟨content, 0, none, tf, wf⟩).2.content = content) := by
  constructor
  · constructor
    · intro h
      by_contra hne
      have hex : ∃ u ∈ d.toList, u.Id = X := by
        push_neg at hne
        exact hne
      rw [remove_found X content d tf wf hX hd hex] at h
      split at h <;> cases h
    · intro h
      rw [remove_not_found X content d tf wf hX hd h]
  · intro h
    rw [remove_not_found X content d tf wf hX hd h]
    simp [File.readAll]

/-- C4: on a store whose content unmarshals to `d`, `findById` of a non-empty id that
some record carries succeeds and writes to the sink the marshalled record that is the
last one with that id in sequence order; the content of the store is unchanged. -/
theorem findById_writes_last_match (content : Bytes) (d : Users) (X : String) (w : Writer)
    (hd : jsonUnmarshalUsers content = .ok d) (hX : X ≠ "") (hw : w.fault = none)
    (hex : ∃ v ∈ d.toList, v.Id = X) :
    ∃ pre u post, d.toList = pre ++ u :: post ∧ u.Id = X ∧ (∀ v ∈ post, v.Id ≠ X) ∧
      (findById X (File.opened content) w).1 = none ∧
      (findById X (File.opened content) w).2.2.out = w.out ++ encodeUser u ∧
      (findById X (File.opened content) w).2.1.content = content := by
  obtain ⟨pre, u, post, hsplit, hu, hpost⟩ := last_match_split X d.toList hex
  refine ⟨pre, u, post, hsplit, hu, hpost, ?_⟩
  rw [findById_opened X content d w hX hd hw, hsplit, findLoop_last X pre post u _ hu hpost]
  exact ⟨rfl, rfl, rfl⟩

/-- C5: on a store whose content unmarshals to `d` (the empty array included),
`findById` of a non-empty id that no record carries succeeds, without error, and writes
the marshalled zero `User`, the bytes `{"id":"","email":"","age":0}`. -/
theorem findById_absent_writes_zero (content : Bytes) (d : Users) (X : String) (w : Writer)
    (hd : jsonUnmarshalUsers content = .ok d) (hX : X ≠ "") (hw : w.fault = none)
    (habs : ∀ v ∈ d.toList, v.Id ≠ X) :
    (findById X (File.opened content) w).1 = none ∧
    (findById X (File.opened content) w).2.2.out =
      w.out ++ "\x7b\"id\":\"\",\"email\":\"\",\"age\":0\x7d".toList := by
  rw [findById_opened X content d w hX hd hw, findLoop_none X d.toList _ habs]
  exact ⟨rfl, rfl⟩

/-- C6, as the code has it: when the content unmarshals to a non-empty `d` in which every
record has the id being removed, `remove` succeeds and leaves exactly the four bytes
`null`, the marshalled nil slice that `newData` still is. -/
theorem remove_all_leaves_null (content : Bytes) (d : Users) (X : String)
    (hd : jsonUnmarshalUsers content = .ok d) (hX : X ≠ "") (hne : d.toList ≠ [])
    (hall : ∀ u ∈ d.toList, u.Id = X) :
    (remove X (File.opened content)).1 = none ∧
    (remove X (File.opened content)).2.content = "null".toList := by
  have hex : ∃ u ∈ d.toList, u.Id = X := by
    rcases hl : d.toList with _ | ⟨u, us⟩
    · exact absurd hl hne
    · exact ⟨u, List.mem_cons_self _ _, hall u (by rw [hl]; exact List.mem_cons_self _ _)⟩
  rw [remove_opened_found X content d hX hd hex, removeLoop_nil_of_all X d.toList hall]
  exact ⟨rfl, rfl⟩

/-- C6, the claim as stated fails: removing id 1 from the one-record store of the spec's
example succeeds and leaves `null`, not the two bytes `[]`. -/
theorem remove_only_record_not_empty_array :
    (remove "1" (File.opened sampleContent)).1 = none ∧
    (remove "1" (File.opened sampleContent)).2.content = "null".toList ∧
    (remove "1" (File.opened sampleContent)).2.content ≠ "[]".toList := by
  decide

/-- C7, the code at the failing input: the write of `remove` fails (the disk is full)
and `remove` returns `nil`, although the file has been truncated and nothing written. -/
theorem remove_reports_success_after_failed_write :
    (remove "1" ⟨sampleContent, 0, none, none, some (.os "no space left on device")⟩).1 = none ∧
    (remove "1" ⟨sampleContent, 0, none, none, some (.os "no space left on device")⟩).2.content
      = [] := by
  decide

/-- C8: an empty argument is rejected before anything else happens: `add` with an empty
payload returns `itemError`, `findById` and `remove` with an empty id return
`idFlagError`, and the file (content, offset) and the sink are exactly as before. -/
theorem empty_argument_rejected_first (file : File) (writer : Writer) :
    add "" file = (some .itemError, file) ∧
    findById "" file writer = (some .idFlagError, file, writer) ∧
    remove "" file = (some .idFlagError, file) := by
  refine ⟨?_, ?_, ?_⟩
  · simp [add]
  · simp [findById]
  · simp [remove]

/-- C9: on a store with zero bytes of content, `findById` and `remove` of a non-empty id
fail with the syntax error of `json.Unmarshal`, write nothing and leave the store as it
is, whereas `add` of a non-empty payload that unmarshals to `r` succeeds and leaves the
one-element array holding `r`. -/
theorem empty_content_asymmetry (X item : String) (r : User) (w : Writer)
    (hX : X ≠ "") (hitem : item ≠ "") (hr : jsonUnmarshalUser item.toList = .ok r) :
    findById X (File.opened []) w = (some (.json .syntaxError), File.opened [], w) ∧
    remove X (File.opened []) = (some (.json .syntaxError), File.opened []) ∧
    (add item (File.opened [])).1 = none ∧
    (add item (File.opened [])).2.content = '[' :: (encodeUser r ++ [']']) ∧
    jsonUnmarshalUsers (add item (File.opened [])).2.content = .ok (.mk [r]) := by
  have hadd := add_opened_ok item [] Users.nil r hitem rfl hr
  have hrt : jsonUnmarshalUsers (encodeUsers (.mk [r])) = .ok (.mk [r]) := by
    apply jsonUnmarshalUsers_encodeUsers
    intro u hu
    rw [List.mem_singleton.mp hu]
    exact jsonUnmarshalUser_range _ _ hr
  refine ⟨?_, ?_, ?_, ?_, ?_⟩
  · simp [findById, hX, File.readAll, File.opened, jsonUnmarshalUsers_empty]
  · simp [remove, hX, File.readAll, File.opened, jsonUnmarshalUsers_empty]
  · rw [hadd]
  · rw [hadd]
    simp [Users.append, Users.toList, encodeUsers, encodeElems, encodeTail]
  · rw [hadd]
    exact hrt

/-- C10: `Perform` checks its arguments in order before any operation runs: an empty
`fileName` gives `fileNameError` whatever the other arguments are, otherwise an empty
`operation` gives `noOperationError`, in both cases with no file opened and the sink
untouched; with both present and an operation other than the four known ones, the
opened file and the sink are left exactly as they were and the result is
`wrongOperationError`. -/
theorem Perform_validates_in_order (osOpenFile : String → Except GoError File)
    (args : Arguments) (writer : Writer) :
    (args "fileName" = "" →
      Perform osOpenFile args writer = (some .fileNameError, none, writer)) ∧
    (args "fileName" ≠ "" → args "operation" = "" →
      Perform osOpenFile args writer = (some .noOperationError, none, writer)) ∧
    (∀ file, args "fileName" ≠ "" → args "operation" ≠ "" →
      args "operation" ≠ "add" → args "operation" ≠ "list" →
      args "operation" ≠ "findById" → args "operation" ≠ "remove" →
      osOpenFile (args "fileName") = .ok file →
      Perform osOpenFile args writer = (some .wrongOperationError, some file, writer)) := by
  refine ⟨?_, ?_, ?_⟩
  · intro h
    simp [Perform, h]
  · intro h1 h2
    simp [Perform, h1, h2]
  · intro file h1 h2 h3 h4 h5 h6 h7
    simp [Perform, h1, h2, h7, doOperation, h3, h4, h5, h6]

/-- C1 at a concrete store: the payload repeats the id already present, and `add`
appends it all the same. -/
theorem add_then_list_yields_appended_witness :
    jsonUnmarshalUsers sampleContent = .ok (.mk [sampleUser]) ∧
    sampleItem ≠ "" ∧
    jsonUnmarshalUser sampleItem.toList = .ok sampleItemUser ∧
    (add sampleItem (File.opened sampleContent)).1 = none ∧
    (add sampleItem (File.opened sampleContent)).2.content =
      encodeUsers (.mk ([sampleUser] ++ [sampleItemUser])) :=
  ⟨by decide, by decide, by decide,
    (add_then_list_yields_appended sampleContent [sampleUser] sampleItem sampleItemUser
      (Or.inr ⟨.mk [sampleUser], by decide, rfl⟩) (by decide) (by decide)).1,
    (add_then_list_yields_appended sampleContent [sampleUser] sampleItem sampleItemUser
      (Or.inr ⟨.mk [sampleUser], by decide, rfl⟩) (by decide) (by decide)).2.1⟩

/-- C2 at a concrete store of two records, removing the first. -/
theorem remove_keeps_exactly_others_witness :
    jsonUnmarshalUsers sampleTwo = .ok (.mk [sampleUser, sampleOther]) ∧
    (remove "1" (File.opened sampleTwo)).1 = none ∧
    ∃ d1, jsonUnmarshalUsers (remove "1" (File.opened sampleTwo)).2.content = .ok d1 ∧
      d1.toList =
        (Users.mk [sampleUser, sampleOther]).toList.filter (fun u => decide (u.Id ≠ "1")) :=
  ⟨by decide,
    remove_keeps_exactly_others sampleTwo (.mk [sampleUser, sampleOther]) "1"
      (by decide) (by decide) ⟨sampleUser, by decide, by decide⟩⟩

/-- C3 at a concrete store: id 2 is absent from the one-record store. -/
theorem remove_not_found_iff_absent_witness :
    jsonUnmarshalUsers sampleContent = .ok (.mk [sampleUser]) ∧
    (remove "2" ⟨sampleContent, 0, none, none, none⟩).1 =
      some (.errorf ("Item with id " ++ "2" ++ " not found")) ∧
    (remove "2" ⟨sampleContent, 0, none, none, none⟩).2.content = sampleContent :=
  ⟨by decide,
    (remove_not_found_iff_absent sampleContent (.mk [sampleUser]) "2" none none
      (by decide) (by decide)).1.mpr (by decide),
    ((remove_not_found_iff_absent sampleContent (.mk [sampleUser]) "2" none none
      (by decide) (by decide)).2 (by decide)).2⟩

/-- C4 at a concrete store in which two records share id 1. -/
theorem findById_writes_last_match_witness :
    jsonUnmarshalUsers sampleDup = .ok (.mk [sampleUser, sampleItemUser]) ∧
    ∃ pre u post, (Users.mk [sampleUser, sampleItemUser]).toList = pre ++ u :: post ∧
      u.Id = "1" ∧ (∀ v ∈ post, v.Id ≠ "1") ∧
      (findById "1" (File.opened sampleDup) Writer.empty).1 = none ∧
      (findById "1" (File.opened sampleDup) Writer.empty).2.2.out =
        Writer.empty.out ++ encodeUser u ∧
      (findById "1" (File.opened sampleDup) Writer.empty).2.1.content = sampleDup :=
  ⟨by decide,
    findById_writes_last_match sampleDup (.mk [sampleUser, sampleItemUser]) "1" Writer.empty
      (by decide) (by decide) rfl ⟨sampleUser, by decide, by decide⟩⟩

/-- C5 at a concrete store: id 2 is absent from the one-record store. -/
theorem findById_absent_writes_zero_witness :
    jsonUnmarshalUsers sampleContent = .ok (.mk [sampleUser]) ∧
    (findById "2" (File.opened sampleContent) Writer.empty).1 = none ∧
    (findById "2" (File.opened sampleContent) Writer.empty).2.2.out =
      Writer.empty.out ++ "\x7b\"id\":\"\",\"email\":\"\",\"age\":0\x7d".toList :=
  ⟨by decide,
    findById_absent_writes_zero sampleContent (.mk [sampleUser]) "2" Writer.empty
      (by decide) (by decide) rfl (by decide)⟩

/-- C6 as amended, at the store of the spec's example. -/
theorem remove_all_leaves_null_witness :
    jsonUnmarshalUsers sampleContent = .ok (.mk [sampleUser]) ∧
    (remove "1" (File.opened sampleContent)).1 = none ∧
    (remove "1" (File.opened sampleContent)).2.content = "null".toList :=
  ⟨by decide,
    remove_all_leaves_null sampleContent (.mk [sampleUser]) "1"
      (by decide) (by decide) (by decide) (by decide)⟩

/-- C9 at a concrete id and payload. -/
theorem empty_content_asymmetry_witness :
    jsonUnmarshalUser sampleItem.toList = .ok sampleItemUser ∧
    findById "1" (File.opened []) Writer.empty =
      (some (.json .syntaxError), File.opened [], Writer.empty) ∧
    remove "1" (File.opened []) = (some (.json .syntaxError), File.opened []) ∧
    (add sampleItem (File.opened [])).1 = none ∧
    (add sampleItem (File.opened [])).2.content = '[' :: (encodeUser sampleItemUser ++ [']']) ∧
    jsonUnmarshalUsers (add sampleItem (File.opened [])).2.content =
      .ok (.mk [sampleItemUser]) :=
  ⟨by decide,
    empty_content_asymmetry "1" sampleItem sampleItemUser Writer.empty
      (by decide) (by decide) (by decide)⟩

/-- C10 at three concrete argument maps: no file name; a file name but no operation; a
file name and the unknown operation `update`. -/
theorem Perform_validates_in_order_witness :
    Perform sampleOpen argsNoFile Writer.empty = (some .fileNameError, none, Writer.empty) ∧
    Perform sampleOpen argsNoOperation Writer.empty =
      (some .noOperationError, none, Writer.empty) ∧
    Perform sampleOpen argsWrongOperation Writer.empty =
      (some .wrongOperationError, some (File.opened sampleContent), Writer.empty) :=
  ⟨(Perform_validates_in_order sampleOpen argsNoFile Writer.empty).1 (by decide),
    (Perform_validates_in_order sampleOpen argsNoOperation Writer.empty).2.1
      (by decide) (by decide),
    (Perform_validates_in_order sampleOpen argsWrongOperation Writer.empty).2.2
      (File.opened sampleContent) (by decide) (by decide) (by decide) (by decide)
      (by decide) (by decide) rfl⟩

end Homework8
